import Mathlib

/-!
# node-modules-cleaner: a verification development

A shallow embedding of `node-modules-cleaner.go` and the properties of its
locator (`findNodeModules`), sizer (`dirSize`), scan coordinator
(`scanNodeModules`), filter (`filterResults`), exporter (`exportResults`),
selector (`interactiveSelection`) and deletion coordinator
(`deleteAllNodeModules`).

Conventions of the embedding.

* Go's `int` and `int64` are `Int`.  The sums and counts `dirSize` and
  `printSummary` accumulate in `int64` variables wrap around as in Go
  (`wrap64`); an index into a slice and a count of its elements cannot leave
  the 64-bit range.
* A path is the list of its components; `filepath.Join path name` is
  `path ++ [name]`.
* A Go slice is a `List`; where `nil` and the empty slice behave differently
  (JSON encoding) the slice is an `Option (List _)`, `none` being `nil`.
* The file system, the clock and the terminal are explicit arguments.
* A pool of goroutines fed by a channel is a state machine whose transitions
  are chosen by a schedule; every statement about a coordinator quantifies
  over all schedules.
-/

set_option maxRecDepth 100000

namespace Cleaner

/-! ## Data model -/

/-- An instant (`time.Time`): nanoseconds since January 1, year 1, 00:00 UTC.
The zero value of `time.Time` is that origin. -/
structure Time where
  ns : Int
deriving DecidableEq, Repr

/-- A path, as the list of its components. -/
abbrev Path := List String

/-- The Go struct `Result`. -/
structure Result where
  Path : Path
  Files : Int
  Dirs : Int
  Size : Int
  ReadOrder : Int
  ModTime : Time
deriving DecidableEq, Repr

/-- The Go struct `Config`. -/
structure Config where
  Root : Path
  DryRun : Bool
  AutoYes : Bool
  ScanOnly : Bool
  MinSize : Int
  MaxSize : Int
  OlderThan : Int
  Interactive : Bool
  ExportPath : String
deriving DecidableEq, Repr

/-- The value an `int64` holds after an addition whose exact result is `x`:
`x` reduced modulo `2^64` into the range from `-2^63` to `2^63 - 1`. -/
def wrap64 (x : Int) : Int :=
  (x + 9223372036854775808) % 18446744073709551616 - 9223372036854775808

/-- The zero value `var res Result`. -/
def Result.zero : Result :=
  ⟨[], 0, 0, 0, 0, ⟨0⟩⟩

/-! ## `time.Since(t).Hours() / 24`

`time.Duration` is a signed 64-bit count of nanoseconds and `Time.Sub`
saturates at its bounds.  `Duration.Hours` is

    hour := d / Hour
    nsec := d % Hour
    return float64(hour) + float64(nsec)/(60*60*1e9)

with IEEE-754 binary64 arithmetic.  A binary64 value is modelled exactly as a
pair mantissa/exponent, and each operation rounds the exact result to 53
significant bits, ties to even.  (Overflow and subnormals cannot occur for the
magnitudes an hour count takes.) -/

/-- The value `m * 2^e`. -/
structure F64 where
  m : Int
  e : Int
deriving DecidableEq, Repr

/-- Structural helper for `ilog2`. -/
def ilog2Aux : Nat → Nat → Nat
  | 0, _ => 0
  | fuel + 1, n => if n < 2 then 0 else ilog2Aux fuel (n / 2) + 1

/-- Floor of the binary logarithm (`0` at `0`). -/
def ilog2 (n : Nat) : Nat := ilog2Aux n n

/-- The integer nearest to `n / d`, ties to even. -/
def roundHalfEven (n d : Nat) : Nat :=
  let q := n / d
  let r := n % d
  if 2 * r < d then q else if d < 2 * r then q + 1 else if q % 2 = 0 then q else q + 1

/-- Numerator of `(n / d) / 2^e`. -/
def scaleNum (n : Nat) (e : Int) : Nat := n * 2 ^ (-e).toNat

/-- Denominator of `(n / d) / 2^e`. -/
def scaleDen (d : Nat) (e : Int) : Nat := d * 2 ^ e.toNat

/-- The exponent `e` with `2^52 ≤ (a / d) / 2^e < 2^53`, for `0 < a` and
`0 < d`: the difference of the binary logarithms, less 52, or one less. -/
def exponentOf (a d : Nat) : Int :=
  let e0 : Int := (ilog2 a : Int) - (ilog2 d : Int) - 52
  if scaleNum a e0 < 2 ^ 52 * scaleDen d e0 then e0 - 1 else e0

/-- The binary64 value nearest to the rational `n / d` (`0 < d`): at the
exponent of `|n / d|` the mantissa is rounded to the nearest integer, ties to
even. -/
def roundRatio (n : Int) (d : Nat) : F64 :=
  if n = 0 then ⟨0, 0⟩ else
  let e := exponentOf n.natAbs d
  let m := roundHalfEven (scaleNum n.natAbs e) (scaleDen d e)
  ⟨if n < 0 then -(m : Int) else m, e⟩

/-- The conversion `float64(n)` of an integer. -/
def F64.ofInt (n : Int) : F64 := roundRatio n 1

/-- Binary64 addition. -/
def F64.add (x y : F64) : F64 :=
  let E := min x.e y.e
  let M := x.m * 2 ^ (x.e - E).toNat + y.m * 2 ^ (y.e - E).toNat
  roundRatio (M * 2 ^ E.toNat) (2 ^ (-E).toNat)

/-- Binary64 division (by a non-zero value). -/
def F64.div (x y : F64) : F64 :=
  let s : Int := if y.m < 0 then -1 else 1
  roundRatio (s * x.m * 2 ^ (x.e - y.e).toNat) (y.m.natAbs * 2 ^ (y.e - x.e).toNat)

/-- The conversion `int(x)`: truncation toward zero. -/
def F64.trunc (x : F64) : Int :=
  if 0 ≤ x.e then x.m * 2 ^ x.e.toNat else Int.tdiv x.m (2 ^ (-x.e).toNat)

/-- The constant `time.Hour`, in nanoseconds. -/
def Hour : Int := 3600000000000

/-- Largest `time.Duration`. -/
def maxDuration : Int := 2 ^ 63 - 1

/-- Smallest `time.Duration`. -/
def minDuration : Int := -(2 ^ 63)

/-- The method `t.Sub(u)`: the difference in nanoseconds, saturated to the
range of `time.Duration`. -/
def Time.Sub (t u : Time) : Int :=
  let d := t.ns - u.ns
  if d < minDuration then minDuration else if maxDuration < d then maxDuration else d

/-- The call `time.Since(t)` at the instant `now` (a file's modification time
carries no monotonic reading, so this is `now.Sub(t)`). -/
def Since (now t : Time) : Int := now.Sub t

/-- The method `d.Hours()`. -/
def Hours (d : Int) : F64 :=
  let hour := Int.tdiv d Hour
  let nsec := Int.tmod d Hour
  F64.add (F64.ofInt hour) (F64.div (F64.ofInt nsec) (F64.ofInt (60 * 60 * 1000000000)))

/-- The expression `int(time.Since(t).Hours() / 24)` evaluated at `now`. -/
def daysOld (now t : Time) : Int :=
  (F64.div (Hours (Since now t)) (F64.ofInt 24)).trunc

/-- The value of `x` lies between the integers `A` and `B`, and its exponent
is not positive. -/
def F64.Within (x : F64) (A B : Nat) : Prop :=
  x.e ≤ 0 ∧ (A : Int) * 2 ^ (-x.e).toNat ≤ x.m ∧ x.m ≤ (B : Int) * 2 ^ (-x.e).toNat

/-! ## Filter -/

/-- One iteration of the loop of `filterResults`: `filtered` is the slice
built so far; a `continue` leaves it unchanged. -/
def filterStep (now : Time) (config : Config) (filtered : List Result) (r : Result) :
    List Result :=
  if config.MinSize > 0 ∧ r.Size < config.MinSize then filtered
  else if config.MaxSize > 0 ∧ r.Size > config.MaxSize then filtered
  else if config.OlderThan > 0 then
    if daysOld now r.ModTime < config.OlderThan then filtered
    else filtered ++ [r]
  else filtered ++ [r]

/-- The function `filterResults`, evaluated at the instant `now`. -/
def filterResults (now : Time) (results : List Result) (config : Config) : List Result :=
  results.foldl (filterStep now config) []

/-- What the configuration asks of a retained result, with the age the code
computes. -/
def Retained (now : Time) (config : Config) (r : Result) : Prop :=
  (config.MinSize > 0 → config.MinSize ≤ r.Size) ∧
  (config.MaxSize > 0 → r.Size ≤ config.MaxSize) ∧
  (config.OlderThan > 0 → config.OlderThan ≤ daysOld now r.ModTime)

instance (now : Time) (config : Config) (r : Result) : Decidable (Retained now config r) := by
  unfold Retained; infer_instance

/-- The elapsed time `now - t` in whole days, as the specification words it. -/
def wholeDays (now t : Time) : Int := (now.ns - t.ns) / (24 * Hour)

/-- The retention predicate as the specification words it: the age test is on
the whole days elapsed. -/
def RetainedAsSpecified (now : Time) (config : Config) (r : Result) : Prop :=
  (config.MinSize > 0 → config.MinSize ≤ r.Size) ∧
  (config.MaxSize > 0 → r.Size ≤ config.MaxSize) ∧
  (config.OlderThan > 0 → config.OlderThan ≤ wholeDays now r.ModTime)

instance (now : Time) (config : Config) (r : Result) :
    Decidable (RetainedAsSpecified now config r) := by
  unfold RetainedAsSpecified; infer_instance

/-! ## Export -/

/-- The local struct `ExportResult` of `exportResults`. -/
structure ExportResult where
  Path : Path
  Size : Int
  Files : Int
  Dirs : Int
  ReadOrder : Int
  ModTime : String
deriving DecidableEq, Repr

/-- The built-in `append` on a slice that may be `nil`. -/
def goAppend {α : Type} (s : Option (List α)) (x : α) : Option (List α) :=
  match s with
  | none => some [x]
  | some l => some (l ++ [x])

/-- A JSON document, as far as `encoding/json` produces one for a value of
type `[]ExportResult`. -/
inductive Json where
  | null
  | str (s : String)
  | path (p : Path)
  | num (n : Int)
  | arr (items : List Json)
  | obj (fields : List (String × Json))
deriving Repr

/-- The encoding of one `ExportResult`: an object whose keys are the struct
tags, in field order. -/
def ExportResult.toJson (x : ExportResult) : Json :=
  .obj [("path", .path x.Path), ("size", .num x.Size), ("files", .num x.Files),
    ("dirs", .num x.Dirs), ("read_order", .num x.ReadOrder), ("modified_time", .str x.ModTime)]

/-- The encoding `encoder.Encode(exportData)` of a slice: `encoding/json`
writes a nil slice as `null` and any other slice as an array. -/
def encodeSlice (data : Option (List ExportResult)) : Json :=
  match data with
  | none => .null
  | some l => .arr (l.map ExportResult.toJson)

/-- The loop of `exportResults` building `exportData`, which starts as the nil
slice `var exportData []ExportResult`.  `rfc3339` is `t.Format(time.RFC3339)`. -/
def exportData (rfc3339 : Time → String) (results : List Result) : Option (List ExportResult) :=
  results.foldl
    (fun data r => goAppend data ⟨r.Path, r.Size, r.Files, r.Dirs, r.ReadOrder, rfc3339 r.ModTime⟩)
    none

/-- The function `exportResults`: the document written to the export file when
`os.Create` succeeds (`created`), and no document otherwise. -/
def exportResults (rfc3339 : Time → String) (created : Bool) (results : List Result) :
    Option Json :=
  if created then some (encodeSlice (exportData rfc3339 results)) else none

/-! ## The file system, `filepath.WalkDir`

A directory entry is seen through `fs.DirEntry`: its name, whether it is a
directory, and what `d.Info()` returns (`none` when it fails).  A directory
also has what `os.ReadDir` returns for it: the entries read, in file-name
order, and whether an error came with them. -/

/-- What `d.Info()` yields: `info.Size()` and `info.ModTime()`. -/
structure FileInfo where
  Size : Int
  ModTime : Time
deriving DecidableEq, Repr

/-- A file-system entry.  A `file` is anything that is not a directory: a
regular file, or (`symlink = true`) a symbolic link, whose `Info` is that of the
link itself.  (`Info` can fail for an entry read from a directory; for the root
of a walk it is the result of the `Lstat` that found it.) -/
inductive Entry where
  | file (name : String) (symlink : Bool) (info : Option FileInfo)
  | dir (name : String) (info : Option FileInfo) (readErr : Bool) (entries : List Entry)
deriving Repr

/-- The method `d.Name()`. -/
def Entry.Name : Entry → String
  | .file name _ _ => name
  | .dir name _ _ _ => name

/-- The method `d.IsDir()`. -/
def Entry.IsDir : Entry → Bool
  | .file _ _ _ => false
  | .dir _ _ _ _ => true

/-- The method `d.Info()`. -/
def Entry.Info : Entry → Option FileInfo
  | .file _ _ info => info
  | .dir _ info _ _ => info

/-- The errors a `WalkDirFunc` returns: the sentinel `filepath.SkipDir`, or
any other error. -/
inductive WalkErr where
  | SkipDir
  | other
deriving DecidableEq, Repr

/-- A `fs.WalkDirFunc` acting on a state `σ` (the variables its closure
captures): it receives the path, the entry (`none` for the nil entry passed
when `Lstat` of the root fails) and whether `err != nil`. -/
abbrev WalkDirFunc (σ : Type) := σ → Path → Option Entry → Bool → σ × Option WalkErr

mutual
/-- The recursive `walkDir` of `path/filepath`: call `fn` on the entry; stop
there for a non-directory or an error (a `SkipDir` on a directory is a normal
return); read the directory, reporting a read error by a second call of `fn`;
walk the entries read. -/
def walkDir {σ : Type} (fn : WalkDirFunc σ) (path : Path) (d : Entry) (s : σ) :
    σ × Option WalkErr :=
  match d with
  | .file name symlink info =>
    (fn s path (some (.file name symlink info)) false)
  | .dir name info readErr entries =>
    match fn s path (some (.dir name info readErr entries)) false with
    | (s1, some .SkipDir) => (s1, none)
    | (s1, some .other) => (s1, some .other)
    | (s1, none) =>
      if readErr then
        match fn s1 path (some (.dir name info readErr entries)) true with
        | (s2, some .SkipDir) => (s2, none)
        | (s2, some .other) => (s2, some .other)
        | (s2, none) => walkEntries fn path entries s2
      else walkEntries fn path entries s1
/-- The loop of `walkDir` over the entries of a directory: a `SkipDir` from an
entry ends the loop, any other error is returned. -/
def walkEntries {σ : Type} (fn : WalkDirFunc σ) (path : Path) (entries : List Entry) (s : σ) :
    σ × Option WalkErr :=
  match entries with
  | [] => (s, none)
  | d1 :: rest =>
    match walkDir fn (path ++ [d1.Name]) d1 s with
    | (s1, some .SkipDir) => (s1, none)
    | (s1, some .other) => (s1, some .other)
    | (s1, none) => walkEntries fn path rest s1
end

mutual
/-- The entry a path (relative to the entry) resolves to, as `os.Lstat` sees
it: `none` when a component is missing or is not in a directory. -/
def Entry.lstat (d : Entry) (path : Path) : Option Entry :=
  match path with
  | [] => some d
  | name :: rest =>
    match d with
    | .file _ _ _ => none
    | .dir _ _ _ entries => lstatIn entries name rest
/-- Resolution of `name :: rest` among the entries of a directory. -/
def lstatIn (entries : List Entry) (name : String) (rest : Path) : Option Entry :=
  match entries with
  | [] => none
  | d1 :: more => if d1.Name = name then d1.lstat rest else lstatIn more name rest
end

/-- The function `filepath.WalkDir` on the file system `fs` (the entry at the
empty path): `Lstat` the root; on failure call `fn` once with the error, else
walk; a `SkipDir` reaching the top is a normal return. -/
def WalkDir {σ : Type} (fs : Entry) (root : Path) (fn : WalkDirFunc σ) (s : σ) :
    σ × Option WalkErr :=
  let r := match fs.lstat root with
    | none => fn s root none true
    | some d => walkDir fn root d s
  match r with
  | (s1, some .SkipDir) => (s1, none)
  | (s1, e) => (s1, e)

/-! ## Sizer and locator -/

/-- The closure passed to `WalkDir` by `dirSize`; the state is `res`, whose
counters are `int64`. -/
def dirSizeFn (root : Path) : WalkDirFunc Result := fun res path d err =>
  if err then (res, none)
  else match d with
    | none => (res, none)
    | some d =>
      if d.IsDir then
        let res := { res with Dirs := wrap64 (res.Dirs + 1) }
        if path = root then
          match d.Info with
          | some info => ({ res with ModTime := info.ModTime }, none)
          | none => (res, none)
        else (res, none)
      else
        match d.Info with
        | some info =>
          ({ res with Files := wrap64 (res.Files + 1), Size := wrap64 (res.Size + info.Size) },
            none)
        | none => (res, none)

/-- The function `dirSize` on the file system `fs`. -/
def dirSize (fs : Entry) (root : Path) : Result :=
  (WalkDir fs root (dirSizeFn root) { Result.zero with Path := root }).1

/-- The closure passed to `WalkDir` by `findNodeModules`; the state is the
slice `nodeModules`. -/
def findFn : WalkDirFunc (List Path) := fun nodeModules path d err =>
  if err then (nodeModules, none)
  else match d with
    | none => (nodeModules, none)
    | some d =>
      if d.IsDir ∧ d.Name = "node_modules" then (nodeModules ++ [path], some .SkipDir)
      else (nodeModules, none)

/-- The function `findNodeModules` on the file system `fs`: the paths found and
the error of the walk. -/
def findNodeModules (fs : Entry) (root : Path) : List Path × Option WalkErr :=
  WalkDir fs root findFn []

/-! ## Worker pools

Both coordinators start `runtime.NumCPU()` goroutines that range over a
buffered channel `jobs`; the caller sends every job (the buffer holds them all,
so a send never blocks), closes the channel and waits for the workers.  The
pool is a state machine.  A worker is idle, holds a job it received, or has
run the job and is about to publish the outcome (send it on `results`, or bump
a counter under the mutex).  A schedule, the list of the transitions taken,
stands for the interleaving the Go scheduler picks. -/

/-- The state of one worker goroutine. -/
inductive Worker (J O : Type) where
  | idle
  | holding (job : J)
  | finished (job : J) (out : O)
deriving Repr

/-- The state of a pool: the environment the jobs act on (`env`), the jobs the
caller has not sent yet (`pending`), whether `jobs` is closed, the content of
the channel (`queue`), the workers, what they have published (`acc`), and a
history of the jobs published with their outcomes (`log`), which the program
does not hold and which serves to state its properties. -/
structure Pool (E J O A : Type) where
  env : E
  pending : List J
  closed : Bool
  queue : List J
  workers : List (Worker J O)
  acc : A
  log : List (J × O)

/-- A transition: the caller sends the next job (or closes the channel when all
are sent), or worker `i` takes its next step. -/
inductive Action where
  | produce
  | work (i : Nat)
deriving DecidableEq, Repr

/-- One transition.  `exec` runs a job on the environment, `commit` publishes
an outcome.  An idle worker facing an empty channel does nothing (it blocks or,
the channel being closed, leaves its loop). -/
def Pool.step {E J O A : Type} (exec : E → J → E × O) (commit : A → O → A)
    (s : Pool E J O A) : Action → Pool E J O A
  | .produce =>
    match s.pending with
    | j :: rest => { s with pending := rest, queue := s.queue ++ [j] }
    | [] => { s with closed := true }
  | .work i =>
    match s.workers[i]? with
    | none => s
    | some .idle =>
      match s.queue with
      | [] => s
      | j :: q => { s with queue := q, workers := s.workers.set i (.holding j) }
    | some (.holding j) =>
      { s with env := (exec s.env j).1, workers := s.workers.set i (.finished j (exec s.env j).2) }
    | some (.finished j o) =>
      { s with acc := commit s.acc o, log := s.log ++ [(j, o)], workers := s.workers.set i .idle }

/-- The state a schedule leads to. -/
def Pool.run {E J O A : Type} (exec : E → J → E × O) (commit : A → O → A)
    (sched : List Action) (s : Pool E J O A) : Pool E J O A :=
  sched.foldl (Pool.step exec commit) s

/-- Whether a worker is idle. -/
def Worker.isIdle {J O : Type} : Worker J O → Bool
  | .idle => true
  | _ => false

/-- Every job is sent, the channel is closed and drained, and every worker has
left its loop: `wg.Wait()` returns. -/
def Pool.done {E J O A : Type} (s : Pool E J O A) : Bool :=
  s.pending.isEmpty && s.closed && s.queue.isEmpty && s.workers.all Worker.isIdle

/-- The pool as the coordinator sets it up. -/
def Pool.init {E J O A : Type} (env : E) (jobs : List J) (numWorkers : Nat) (acc : A) :
    Pool E J O A :=
  ⟨env, jobs, false, [], List.replicate numWorkers .idle, acc, []⟩

/-! ## Scan coordinator -/

/-- The job type `struct{ path string; index int }`. -/
structure Job where
  path : Path
  index : Int
deriving DecidableEq, Repr

/-- The jobs sent by `for i, dir := range nodeModules`, `i` counting from `i0`. -/
def scanJobs (i0 : Int) : List Path → List Job
  | [] => []
  | dir :: rest => ⟨dir, i0⟩ :: scanJobs (i0 + 1) rest

/-- The body of a scan worker's loop up to the send: size the directory, set
`ReadOrder`.  The file system `fs` is read, not changed, so the environment of
the scan pool is trivial. -/
def scanExec (fs : Entry) (_ : Unit) (job : Job) : Unit × Result :=
  ((), { dirSize fs job.path with ReadOrder := job.index + 1 })

/-- The send `results <- res` together with its reception by the caller's
`allResults = append(allResults, r)`: the channel is first-in first-out. -/
def scanCommit (allResults : List Result) (r : Result) : List Result :=
  allResults ++ [r]

/-- The pool state of `scanNodeModules` after a schedule. -/
def scanPool (numCPU : Nat) (sched : List Action) (fs : Entry) (nodeModules : List Path) :
    Pool Unit Job Result (List Result) :=
  Pool.run (scanExec fs) scanCommit sched (Pool.init () (scanJobs 0 nodeModules) numCPU [])

/-- The function `scanNodeModules` with `runtime.NumCPU() = numCPU`, under a
schedule: the slice returned, or `none` when the schedule stops before the
pool is done (the call has not returned yet). -/
def scanNodeModules (numCPU : Nat) (sched : List Action) (fs : Entry)
    (nodeModules : List Path) : Option (List Result) :=
  let s := scanPool numCPU sched fs nodeModules
  if s.done then some s.acc else none

/-! ## Deletion coordinator -/

/-- The function `deleteNodeModules`: the file system afterwards and whether
the error returned is non-nil.  `removeAll` is `os.RemoveAll`. -/
def deleteNodeModules (removeAll : Entry → Path → Entry × Bool) (fs : Entry) (path : Path)
    (dryRun : Bool) : Entry × Bool :=
  if dryRun then (fs, false)
  else
    let r := removeAll fs path
    if r.2 then (r.1, true) else (r.1, false)

/-- The critical section of a deletion worker, on the pair `(deleted, failed)`. -/
def deleteCommit (counts : Int × Int) (err : Bool) : Int × Int :=
  if err then (counts.1, counts.2 + 1) else (counts.1 + 1, counts.2)

/-- The pool state of `deleteAllNodeModules` after a schedule. -/
def deletePool (removeAll : Entry → Path → Entry × Bool) (numCPU : Nat) (sched : List Action)
    (fs : Entry) (results : List Result) (dryRun : Bool) :
    Pool Entry Result Bool (Int × Int) :=
  Pool.run (fun fs r => deleteNodeModules removeAll fs r.Path dryRun) deleteCommit sched
    (Pool.init fs results numCPU (0, 0))

/-- The function `deleteAllNodeModules` with `runtime.NumCPU() = numCPU`, under
a schedule: the file system left behind and the pair `(deleted, failed)`
returned, or `none` when the schedule stops before the pool is done. -/
def deleteAllNodeModules (removeAll : Entry → Path → Entry × Bool) (numCPU : Nat)
    (sched : List Action) (fs : Entry) (results : List Result) (dryRun : Bool) :
    Option (Entry × Int × Int) :=
  let s := deletePool removeAll numCPU sched fs results dryRun
  if s.done then some (s.env, s.acc) else none

/-- The calls of `deleteNodeModules` made during `deleteAllNodeModules`, each
with whether it returned an error. -/
def deleteTrace (removeAll : Entry → Path → Entry × Bool) (numCPU : Nat)
    (sched : List Action) (fs : Entry) (results : List Result) (dryRun : Bool) :
    List (Result × Bool) :=
  (deletePool removeAll numCPU sched fs results dryRun).log

/-- The schedule in which the caller sends every job and closes the channel,
and then worker `0` does all the work, three steps per job. -/
def soloSchedule (n : Nat) : List Action :=
  List.replicate (n + 1) .produce ++ List.replicate (3 * n) (.work 0)

/-! ## Selector

Strings are lists of characters.  The line typed is what
`reader.ReadString` returned, `none` when it returned an error. -/

/-- The predicate `unicode.IsSpace`, which `strings.TrimSpace` trims by. -/
def isSpace (c : Char) : Bool :=
  let n := c.toNat
  (0x09 ≤ n && n ≤ 0x0D) || n == 0x20 || n == 0x85 || n == 0xA0 || n == 0x1680 ||
    (0x2000 ≤ n && n ≤ 0x200A) || n == 0x2028 || n == 0x2029 || n == 0x202F ||
    n == 0x205F || n == 0x3000

/-- The function `strings.TrimSpace`. -/
def TrimSpace (s : List Char) : List Char :=
  ((s.dropWhile isSpace).reverse.dropWhile isSpace).reverse

/-- The function `strings.ToLower`, on the letters `A` to `Z`.  Other cased
letters are left as they are: none of them maps to a letter of the keywords
the selector compares with, to a digit, a sign, a comma or a space, so the
selection does not depend on them. -/
def ToLower (s : List Char) : List Char :=
  s.map Char.toLower

/-- The function `strings.Split` at a one-character separator. -/
def Split (sep : Char) : List Char → List (List Char)
  | [] => [[]]
  | c :: cs =>
    if c = sep then [] :: Split sep cs
    else
      match Split sep cs with
      | p :: ps => (c :: p) :: ps
      | [] => [[c]]

/-- The token `fmt` reads for `%d` from an input that does not start with a
space: an optional sign, then the longest run of the digits `"0123456789"`,
which must not be empty.  What follows the run is left unread.  (Digit
separating underscores and base prefixes are accepted with `%v` only.) -/
def scanToken (s : List Char) : Option (List Char) :=
  match s with
  | [] => none
  | c :: rest =>
    if c = '+' ∨ c = '-' then
      if rest.takeWhile Char.isDigit = [] then none
      else some (c :: rest.takeWhile Char.isDigit)
    else
      if s.takeWhile Char.isDigit = [] then none
      else some (s.takeWhile Char.isDigit)

/-- The loop of `strconv.ParseUint` in base 10: the value of a run of decimal
digits after `acc`, `none` at any other character. -/
def parseDigits (acc : Nat) : List Char → Option Nat
  | [] => some acc
  | c :: cs => if c.isDigit then parseDigits (10 * acc + (c.toNat - 48)) cs else none

/-- The call `strconv.ParseInt(tok, 10, 64)`: `none` on a syntax or range
error. -/
def ParseInt (tok : List Char) : Option Int :=
  match tok with
  | [] => none
  | c :: rest =>
    if c = '-' then
      match rest with
      | [] => none
      | _ :: _ =>
        match parseDigits 0 rest with
        | some n => if n ≤ 2 ^ 63 then some (-(n : Int)) else none
        | none => none
    else
      let body := if c = '+' then rest else tok
      match body with
      | [] => none
      | _ :: _ =>
        match parseDigits 0 body with
        | some n => if n < 2 ^ 63 then some (n : Int) else none
        | none => none

/-- The call `fmt.Sscanf(part, "%d", &num)` on a trimmed `part`: the value
stored in `num` when the error is nil. -/
def Sscanf (part : List Char) : Option Int :=
  match scanToken part with
  | none => none
  | some tok => ParseInt tok

/-- One iteration of the loop of `interactiveSelection` over `parts`. -/
def selectStep (results : List Result) (selected : List Result) (part : List Char) :
    List Result :=
  match Sscanf (TrimSpace part) with
  | some num =>
    if num > 0 ∧ num ≤ results.length then
      match results[(num - 1).toNat]? with
      | some r => selected ++ [r]
      | none => selected
    else selected
  | none => selected

/-- The function `interactiveSelection` on the line read; the nil slice is
`[]`. -/
def interactiveSelection (results : List Result) (line : Option String) : List Result :=
  if results.length = 0 then results
  else
    match line with
    | none => []
    | some line =>
      let input := ToLower (TrimSpace line.data)
      if input = "none".data ∨ input = "cancel".data then []
      else if input = "all".data then results
      else
        let parts := Split ',' input
        let selected := parts.foldl (selectStep results) []
        if selected.length = 0 then [] else selected

/-! ## Summary and the interactive path of `main` -/

/-- What `sort.Slice(sortedResults, less)` guarantees of the slice it leaves,
with `less(i, j) = sortedResults[i].Size > sortedResults[j].Size`: the same
results, none before a larger one.  The order among results of equal size is
not specified. -/
def SortsBySize (sortSlice : List Result → List Result) : Prop :=
  ∀ l, (sortSlice l).Perm l ∧ (sortSlice l).Pairwise (fun a b => b.Size ≤ a.Size)

/-- Insertion of a result before the first one of smaller or equal size. -/
def insertBySize (r : Result) : List Result → List Result
  | [] => [r]
  | x :: xs => if x.Size ≤ r.Size then r :: x :: xs else x :: insertBySize r xs

/-- A sort by size, largest first, for the examples: insertion sort. -/
def sortBySize (results : List Result) : List Result :=
  results.foldr insertBySize []

/-- What `printSummary` prints: the rows of the table, top to bottom, and the
totals. -/
structure Summary where
  rows : List Result
  totalSize : Int
  totalFiles : Int
  totalDirs : Int
deriving DecidableEq, Repr

/-- The function `printSummary`: it sorts a copy of `results` and prints it;
`results` itself is not touched.  `sortSlice` is the effect of `sort.Slice`
on the copy; the totals are `int64`. -/
def printSummary (sortSlice : List Result → List Result) (results : List Result) : Summary :=
  let sortedResults := sortSlice results
  ⟨sortedResults,
    sortedResults.foldl (fun total r => wrap64 (total + r.Size)) 0,
    sortedResults.foldl (fun total r => wrap64 (total + r.Files)) 0,
    sortedResults.foldl (fun total r => wrap64 (total + r.Dirs)) 0⟩

/-- What happens in the interactive path of `main`. -/
structure Interactive where
  summary : Summary
  handed : List Result
  selected : List Result
deriving DecidableEq, Repr

/-- The function `main` from the return of `scanNodeModules` to the return of
`interactiveSelection`, with `config.Interactive` set and `config.ScanOnly`
not: the optional filter, the summary printed, the slice handed to the
selector and the selection made. -/
def mainInteractive (sortSlice : List Result → List Result) (now : Time) (config : Config)
    (results : List Result) (line : Option String) : Interactive :=
  let results :=
    if config.MinSize > 0 ∨ config.MaxSize > 0 ∨ config.OlderThan > 0 then
      filterResults now results config
    else results
  ⟨printSummary sortSlice results, results, interactiveSelection results line⟩

/-! ## Measures of a tree, for the statements about `dirSize` -/

mutual
/-- The sum of a weight over an entry and everything below it. -/
def Entry.sumOver (w : Entry → Int) : Entry → Int
  | .file name symlink info => w (.file name symlink info)
  | .dir name info readErr entries => w (.dir name info readErr entries) + sumOverIn w entries
/-- The sum of a weight over the entries of a directory and everything below
them. -/
def sumOverIn (w : Entry → Int) : List Entry → Int
  | [] => 0
  | d :: rest => d.sumOver w + sumOverIn w rest
end

/-- Weight 1 on every directory. -/
def isDirectory : Entry → Int
  | .dir _ _ _ _ => 1
  | .file _ _ _ => 0

/-- Weight 1 on every non-directory whose `Info` succeeds, symbolic links
included. -/
def statFile : Entry → Int
  | .file _ _ (some _) => 1
  | _ => 0

/-- The size of every non-directory whose `Info` succeeds, symbolic links
included (the size of a link is that of the link itself). -/
def statBytes : Entry → Int
  | .file _ _ (some info) => info.Size
  | _ => 0

/-- Weight 1 on every non-directory that is not a symbolic link and whose
`Info` succeeds: the files of the specification, which skips links. -/
def regularFile : Entry → Int
  | .file _ false (some _) => 1
  | _ => 0

/-- The size of every non-directory that is not a symbolic link and whose
`Info` succeeds. -/
def regularBytes : Entry → Int
  | .file _ false (some info) => info.Size
  | _ => 0

/-- Weight 1 on every symbolic link whose `Info` succeeds. -/
def linkFile : Entry → Int
  | .file _ true (some _) => 1
  | _ => 0

/-- The size of every symbolic link whose `Info` succeeds: that of the link
itself, not of what it points to. -/
def linkBytes : Entry → Int
  | .file _ true (some info) => info.Size
  | _ => 0

/-- The counters of a result hold `int64` values. -/
def Result.InRange (res : Result) : Prop :=
  wrap64 res.Files = res.Files ∧ wrap64 res.Dirs = res.Dirs ∧ wrap64 res.Size = res.Size

/-- The result after `int64` additions to `Files`, `Dirs` and `Size` whose
exact sums are the given ones. -/
def Result.bump (res : Result) (files dirs size : Int) : Result :=
  ⟨res.Path, wrap64 (res.Files + files), wrap64 (res.Dirs + dirs), wrap64 (res.Size + size),
    res.ReadOrder, res.ModTime⟩

/-- The modification time `dirSize` records: that of the root when it is a
directory whose `Info` succeeds, the zero time otherwise. -/
def rootModTime : Entry → Time
  | .dir _ (some info) _ _ => info.ModTime
  | _ => ⟨0⟩

/-- A regular file of the given size. -/
def plain (name : String) (size : Int) : Entry :=
  .file name false (some ⟨size, ⟨0⟩⟩)

/-- A readable directory. -/
def folder (name : String) (entries : List Entry) : Entry :=
  .dir name (some ⟨4096, ⟨0⟩⟩) false entries

/-- The end-to-end scenario: `a/node_modules` holds 2 files, 10 bytes,
`b/node_modules` holds 1 file, 5 bytes. -/
def scenario : Entry :=
  folder "" [
    folder "a" [folder "node_modules" [plain "x.js" 4, plain "y.js" 6]],
    folder "b" [folder "node_modules" [plain "z.js" 5]]]

/-- A matched directory holding one symbolic link, 7 bytes long. -/
def linkedMatch : Entry :=
  folder "node_modules" [.file "bin" true (some ⟨7, ⟨0⟩⟩)]

/-- A file system whose only match is `linkedMatch`. -/
def linked : Entry :=
  folder "" [linkedMatch]

/-- A file system whose only match holds two sparse files, of `2^63 - 1` bytes
and of 1 byte. -/
def sparse : Entry :=
  folder "" [folder "node_modules" [plain "big" 9223372036854775807, plain "one" 1]]

/-! ## Top-level matches, for the statements about `findNodeModules` -/

mutual
/-- The directories named `node_modules` at or below an entry that are not
inside another one, in pre-order, as paths from `path`, the path of the
entry. -/
def topMatches (path : Path) : Entry → List Path
  | .file _ _ _ => []
  | .dir name _ _ entries =>
    if name = "node_modules" then [path] else topMatchesIn path entries
/-- The same below the entries of the directory at `path`. -/
def topMatchesIn (path : Path) : List Entry → List Path
  | [] => []
  | d :: rest => topMatches (path ++ [d.Name]) d ++ topMatchesIn path rest
end

/-- The proposition `Reach t q above e`: the entry `e` lies in the tree `t` at
the relative path `q`, and `above` lists the directories it is inside of, from
`t` down to its parent. -/
inductive Reach : Entry → Path → List Entry → Entry → Prop where
  | here (t : Entry) : Reach t [] [] t
  | down {name : String} {info : Option FileInfo} {readErr : Bool} {entries : List Entry}
      {c : Entry} {q : Path} {above : List Entry} {e : Entry} :
      c ∈ entries → Reach c q above e →
      Reach (.dir name info readErr entries) (c.Name :: q)
        (.dir name info readErr entries :: above) e

mutual
/-- No directory of the tree has two entries of the same name. -/
def Entry.UniqueNames : Entry → Prop
  | .file _ _ _ => True
  | .dir _ _ _ entries => (entries.map Entry.Name).Nodup ∧ uniqueNamesIn entries
/-- The same for each entry of a list. -/
def uniqueNamesIn : List Entry → Prop
  | [] => True
  | d :: rest => d.UniqueNames ∧ uniqueNamesIn rest
end

/-! ## Bookkeeping on pools, for the statements about the coordinators -/

/-- The job a worker has in hand. -/
def Worker.jobs {J O : Type} : Worker J O → List J
  | .idle => []
  | .holding j => [j]
  | .finished j _ => [j]

/-- The jobs the workers have in hand. -/
def heldJobs {J O : Type} : List (Worker J O) → List J
  | [] => []
  | w :: ws => w.jobs ++ heldJobs ws

/-- Every job of a pool: not sent yet, in the channel, in hand, or published. -/
def Pool.jobs {E J O A : Type} (s : Pool E J O A) : List J :=
  s.pending ++ s.queue ++ heldJobs s.workers ++ s.log.map Prod.fst

/-- The steps a worker still owes for the job in hand. -/
def Worker.weight {J O : Type} : Worker J O → Nat
  | .idle => 0
  | .holding _ => 2
  | .finished _ _ => 1

/-- The steps the workers owe for the jobs in hand. -/
def totalWeight {J O : Type} : List (Worker J O) → Nat
  | [] => 0
  | w :: ws => w.weight + totalWeight ws

/-- A bound on the number of effective transitions a pool can still take. -/
def Pool.measure {E J O A : Type} (s : Pool E J O A) : Nat :=
  4 * s.pending.length + (if s.closed then 0 else 1) + 3 * s.queue.length +
    totalWeight s.workers

/-! ## The selection, for the statements about `interactiveSelection` -/

/-- The result at the 1-based position `num`, when `num` is a position. -/
def pick (results : List Result) (num : Option Int) : Option Result :=
  match num with
  | some k => if k > 0 ∧ k ≤ results.length then results[(k - 1).toNat]? else none
  | none => none

/-- The selection a line denotes when `value` gives the integer a token
stands for: nothing for `none` and `cancel`, everything for `all`, and
otherwise the results at the positions the comma-separated tokens stand for,
in token order, the tokens that stand for no position being dropped. -/
def selectionWith (value : List Char → Option Int) (results : List Result) (line : String) :
    List Result :=
  let input := ToLower (TrimSpace line.data)
  if input = "none".data ∨ input = "cancel".data then []
  else if input = "all".data then results
  else (Split ',' input).filterMap (fun tok => pick results (value (TrimSpace tok)))

/-- The integer a token is, when the token as a whole is a decimal integer
(`strconv.ParseInt` accepts it). -/
def integerToken (tok : List Char) : Option Int := ParseInt tok

/-- The selection as the specification words it: a token counts when it is an
integer. -/
def selectionAsSpecified (results : List Result) (line : String) : List Result :=
  selectionWith integerToken results line

/-! ## Concrete data used in examples -/

/-- An interleaving of two workers on two jobs in which worker 1 receives the
second job and publishes its result before worker 0 has run the first. -/
def secondFirst : List Action :=
  [.produce, .work 0, .produce, .work 1, .work 1, .work 1, .work 0, .work 0, .produce]

/-- An `os.RemoveAll` that fails on `q/node_modules` and succeeds elsewhere,
leaving the tree as it is. -/
def failsOnQ (fs : Entry) (path : Path) : Entry × Bool :=
  (fs, path == ["q", "node_modules"])

/-- A tree with a match, a file named `node_modules`, a match whose parent
was read with an error, and a `node_modules` nested in the first match. -/
def nested : Entry :=
  folder "" [
    folder "a" [folder "node_modules" [folder "x" [folder "node_modules" []]]],
    plain "node_modules" 3,
    .dir "b" none true [folder "node_modules" []]]

/-- A result of size `size`, modified at `mod`. -/
def sample (name : String) (size : Int) (order : Int) (mod : Int) : Result :=
  ⟨[name, "node_modules"], 1, 1, size, order, ⟨mod⟩⟩

/-- A configuration that only sets the age threshold. -/
def olderThan (days : Int) : Config :=
  ⟨[], false, false, false, 0, 0, days, false, ""⟩

/-- A directory modified on May 14, 2026, at 00:00 UTC, 739749 days after the
origin of `Time`. -/
def aged : Result := sample "a" 10 1 63914313600000000000

/-- The instant of evaluation: `aged.ModTime` plus 171 days minus one
nanosecond, the last nanosecond of October 31, 2026. -/
def agedNow : Time := ⟨63914313600000000000 + (171 * 24 * Hour - 1)⟩

/-- Three results, in no order of size. -/
def three : List Result :=
  [sample "p" 5 1 0, sample "q" 7 2 0, sample "r" 6 3 0]

/-- Five results. -/
def five : List Result :=
  [sample "p" 5 1 0, sample "q" 7 2 0, sample "r" 6 3 0, sample "s" 9 4 0, sample "t" 1 5 0]

/-- A configuration for the interactive path, with no filter. -/
def interactive : Config :=
  ⟨[], false, false, false, 0, 0, 0, true, ""⟩

/-- A file system whose first match in walk order is the smaller one:
`a/node_modules` holds 5 bytes, `b/node_modules` holds 10. -/
def smallFirst : Entry :=
  folder "" [
    folder "a" [folder "node_modules" [plain "x.js" 5]],
    folder "b" [folder "node_modules" [plain "y.js" 10]]]

/-! # Theorems -/

/-! ## Binary64 rounding of the age -/

/-- With enough fuel `ilog2Aux` is the floor of the binary logarithm. -/
theorem ilog2Aux_spec : ∀ (fuel n : Nat), 0 < n → n ≤ fuel →
    2 ^ ilog2Aux fuel n ≤ n ∧ n < 2 ^ (ilog2Aux fuel n + 1)
  | 0, n, h0, h1 => by omega
  | fuel + 1, n, h0, h1 => by
    unfold ilog2Aux
    by_cases h : n < 2
    · rw [if_pos h]
      simp
      omega
    · rw [if_neg h]
      have ih := ilog2Aux_spec fuel (n / 2) (by omega) (by omega)
      obtain ⟨a, b⟩ := ih
      constructor
      · rw [pow_succ]; omega
      · rw [pow_succ]; omega

/-- The function `ilog2` is the floor of the binary logarithm. -/
theorem ilog2_spec (n : Nat) (h : 0 < n) : 2 ^ ilog2 n ≤ n ∧ n < 2 ^ (ilog2 n + 1) :=
  ilog2Aux_spec n n h (le_refl _)

/-- Rounding does not go below an integer below the ratio. -/
theorem roundHalfEven_ge (N d X : Nat) (hd : 0 < d) (h : X * d ≤ N) : X ≤ roundHalfEven N d := by
  have hq : X ≤ N / d := (Nat.le_div_iff_mul_le hd).mpr h
  unfold roundHalfEven
  simp only
  split_ifs <;> omega

/-- Rounding does not go above an integer above the ratio. -/
theorem roundHalfEven_le (N d Y : Nat) (hd : 0 < d) (h : N ≤ Y * d) : roundHalfEven N d ≤ Y := by
  have hq : N / d ≤ Y := by
    apply Nat.div_le_of_le_mul
    rw [Nat.mul_comm]; exact h
  have hmod := Nat.div_add_mod N d
  unfold roundHalfEven
  simp only
  by_cases he : N / d = Y
  · have hr : N % d = 0 := by
      have : d * (N / d) = Y * d := by rw [he, Nat.mul_comm]
      omega
    rw [if_pos (by omega)]
    exact hq
  · split_ifs <;> omega


/-- Below `2^53` the exponent is not positive. -/
theorem exponentOf_nonpos (n d : Nat) (hn : 0 < n) (hd : 0 < d) (h : n < 2 ^ 53 * d) :
    exponentOf n d ≤ 0 := by
  obtain ⟨hn1, _⟩ := ilog2_spec n hn
  obtain ⟨_, hd2⟩ := ilog2_spec d hd
  have hL : ilog2 n < ilog2 d + 54 := by
    have h1 : 2 ^ ilog2 n < 2 ^ (ilog2 d + 54) := by
      have h2 : 2 ^ 53 * d < 2 ^ 53 * 2 ^ (ilog2 d + 1) :=
        Nat.mul_lt_mul_of_pos_left hd2 (by positivity)
      have h3 : 2 ^ 53 * 2 ^ (ilog2 d + 1) = 2 ^ (ilog2 d + 54) := by
        rw [← pow_add]; congr 1; omega
      omega
    exact (Nat.pow_lt_pow_iff_right (by decide)).mp h1
  unfold exponentOf
  simp only
  split_ifs with hc
  · omega
  · by_contra hpos
    have he : (ilog2 n : Int) - (ilog2 d : Int) - 52 = 1 := by omega
    rw [he] at hc
    apply hc
    have h1 : scaleNum n 1 = n := by
      show n * 2 ^ (-(1 : Int)).toNat = n
      rw [show (-(1 : Int)).toNat = 0 from rfl]
      simp
    have h2 : scaleDen d 1 = d * 2 := by
      show d * 2 ^ (1 : Int).toNat = d * 2
      rw [show (1 : Int).toNat = 1 from rfl]
      simp
    rw [h1, h2]
    omega

/-- A ratio between two integers below `2^53` rounds to a value between them. -/
theorem roundRatio_within (n : Int) (d A B : Nat) (hn : 0 ≤ n) (hd : 0 < d)
    (hA : (A : Int) * d ≤ n) (hB : n ≤ (B : Int) * d) (hB53 : B < 2 ^ 53) :
    (roundRatio n d).Within A B := by
  obtain ⟨N, rfl⟩ := Int.eq_ofNat_of_zero_le hn
  have hA1 : A * d ≤ N := by exact_mod_cast hA
  have hB1 : N ≤ B * d := by exact_mod_cast hB
  by_cases hN : N = 0
  · subst hN
    have hA0 : A = 0 := by
      rcases Nat.eq_zero_or_pos A with h | h
      · exact h
      · have : 0 < A * d := Nat.mul_pos h hd
        omega
    simp [roundRatio, F64.Within, hA0]
  · have hN0 : 0 < N := Nat.pos_of_ne_zero hN
    have hlt : N < 2 ^ 53 * d := by
      have : B * d < 2 ^ 53 * d := Nat.mul_lt_mul_of_pos_right hB53 hd
      omega
    have he := exponentOf_nonpos N d hN0 hd hlt
    have hcast : ((N : Int) = 0) = False := by simp [hN]
    have hneg : ((N : Int) < 0) = False := by simp
    unfold roundRatio F64.Within
    simp only [hcast, hneg, if_false, Int.natAbs_ofNat]
    have hden : scaleDen d (exponentOf N d) = d := by
      unfold scaleDen
      have : (exponentOf N d).toNat = 0 := by omega
      rw [this]; simp
    rw [hden]
    unfold scaleNum
    refine ⟨he, ?_, ?_⟩
    · have := roundHalfEven_ge (N * 2 ^ (-exponentOf N d).toNat) d
        (A * 2 ^ (-exponentOf N d).toNat) hd (by
          calc A * 2 ^ (-exponentOf N d).toNat * d
              = A * d * 2 ^ (-exponentOf N d).toNat := by ring
            _ ≤ N * 2 ^ (-exponentOf N d).toNat := Nat.mul_le_mul_right _ hA1)
      exact_mod_cast this
    · have := roundHalfEven_le (N * 2 ^ (-exponentOf N d).toNat) d
        (B * 2 ^ (-exponentOf N d).toNat) hd (by
          calc N * 2 ^ (-exponentOf N d).toNat
              ≤ B * d * 2 ^ (-exponentOf N d).toNat := Nat.mul_le_mul_right _ hB1
            _ = B * 2 ^ (-exponentOf N d).toNat * d := by ring)
      exact_mod_cast this

/-- The conversion of an integer below `2^53` is exact. -/
theorem F64.ofInt_within (n : Nat) (h : n < 2 ^ 53) : (F64.ofInt n).Within n n := by
  unfold F64.ofInt
  exact roundRatio_within n 1 n n (by positivity) (by decide) (by simp) (by simp) h


/-- Division by an exact positive integer `C` takes a value between `A` and `B`
to one between any integers that bound `A / C` and `B / C`. -/
theorem F64.div_within (x y : F64) (A B C A1 B1 : Nat) (hx : x.Within A B)
    (hy : y.Within C C) (hC : 0 < C) (hA : A1 * C ≤ A) (hB : B ≤ B1 * C) (hB1 : B1 < 2 ^ 53) :
    (x.div y).Within A1 B1 := by
  obtain ⟨hxe, hxA, hxB⟩ := hx
  obtain ⟨hye, hyA, hyB⟩ := hy
  have hym : y.m = (C : Int) * 2 ^ (-y.e).toNat := le_antisymm hyB hyA
  have hCpos : (0 : Int) < C := by exact_mod_cast hC
  have hypos : 0 < y.m := by rw [hym]; positivity
  have hxm : 0 ≤ x.m := le_trans (by positivity) hxA
  have hexp : (-y.e).toNat + (y.e - x.e).toNat = (-x.e).toNat + (x.e - y.e).toNat := by omega
  have hA' : (A1 : Int) * C ≤ A := by exact_mod_cast hA
  have hB' : (B : Int) ≤ B1 * C := by exact_mod_cast hB
  unfold F64.div
  simp only [not_lt.mpr hypos.le, if_false, one_mul]
  have hden : ((y.m.natAbs * 2 ^ (y.e - x.e).toNat : Nat) : Int) =
      (C : Int) * 2 ^ ((-x.e).toNat + (x.e - y.e).toNat) := by
    push_cast
    rw [abs_of_pos hypos, hym, mul_assoc, ← pow_add, hexp]
  apply roundRatio_within
  · positivity
  · have : 0 < y.m.natAbs := Int.natAbs_pos.mpr hypos.ne'
    positivity
  · rw [hden, pow_add]
    calc (A1 : Int) * (C * (2 ^ (-x.e).toNat * 2 ^ (x.e - y.e).toNat))
        = (A1 * C) * 2 ^ (-x.e).toNat * 2 ^ (x.e - y.e).toNat := by ring
      _ ≤ A * 2 ^ (-x.e).toNat * 2 ^ (x.e - y.e).toNat := by gcongr
      _ ≤ x.m * 2 ^ (x.e - y.e).toNat := by gcongr
  · rw [hden, pow_add]
    calc x.m * 2 ^ (x.e - y.e).toNat
        ≤ B * 2 ^ (-x.e).toNat * 2 ^ (x.e - y.e).toNat := by gcongr
      _ ≤ (B1 * C) * 2 ^ (-x.e).toNat * 2 ^ (x.e - y.e).toNat := by gcongr
      _ = (B1 : Int) * (C * (2 ^ (-x.e).toNat * 2 ^ (x.e - y.e).toNat)) := by ring
  · exact hB1

/-- Addition of an exact integer shifts the bounds of a value. -/
theorem F64.add_within (x y : F64) (A C D : Nat) (hx : x.Within A A) (hy : y.Within C D)
    (h : A + D < 2 ^ 53) : (x.add y).Within (A + C) (A + D) := by
  obtain ⟨hxe, hxA, hxB⟩ := hx
  obtain ⟨hye, hyA, hyB⟩ := hy
  have hxm : x.m = (A : Int) * 2 ^ (-x.e).toNat := le_antisymm hxB hxA
  have hE : min x.e y.e ≤ 0 := le_trans (min_le_left _ _) hxe
  have hE0 : (min x.e y.e).toNat = 0 := by omega
  have hx1 : (-x.e).toNat + (x.e - min x.e y.e).toNat = (-min x.e y.e).toNat := by omega
  have hy1 : (-y.e).toNat + (y.e - min x.e y.e).toNat = (-min x.e y.e).toNat := by omega
  have hym : 0 ≤ y.m := le_trans (by positivity) hyA
  unfold F64.add
  simp only [hE0, pow_zero, mul_one]
  have hxs : x.m * 2 ^ (x.e - min x.e y.e).toNat = (A : Int) * 2 ^ (-min x.e y.e).toNat := by
    rw [hxm, mul_assoc, ← pow_add, hx1]
  apply roundRatio_within
  · rw [hxs]; positivity
  · positivity
  · rw [hxs]
    push_cast
    have : (C : Int) * 2 ^ (-min x.e y.e).toNat ≤ y.m * 2 ^ (y.e - min x.e y.e).toNat := by
      rw [← hy1, pow_add, ← mul_assoc]
      gcongr
    linarith
  · rw [hxs]
    push_cast
    have : y.m * 2 ^ (y.e - min x.e y.e).toNat ≤ (D : Int) * 2 ^ (-min x.e y.e).toNat := by
      rw [← hy1, pow_add, ← mul_assoc]
      gcongr
    linarith
  · exact h

/-- Truncation keeps integer bounds. -/
theorem F64.trunc_within (x : F64) (A B : Nat) (hx : x.Within A B) :
    (A : Int) ≤ x.trunc ∧ x.trunc ≤ B := by
  obtain ⟨hxe, hxA, hxB⟩ := hx
  have hxm : 0 ≤ x.m := le_trans (by positivity) hxA
  unfold F64.trunc
  by_cases h0 : 0 ≤ x.e
  · have he : x.e = 0 := le_antisymm hxe h0
    rw [if_pos h0]
    rw [he] at hxA hxB ⊢
    simpa using And.intro hxA hxB
  · rw [if_neg h0]
    have hpos : (0 : Int) < 2 ^ (-x.e).toNat := by positivity
    rw [Int.tdiv_eq_ediv hxm hpos.le]
    exact ⟨(Int.le_ediv_iff_mul_le hpos).mpr hxA, Int.ediv_le_of_le_mul hpos hxB⟩


/-- The hours of a duration between 0 and the largest one lie between its whole
hours and one more. -/
theorem Hours_within (d : Int) (h0 : 0 ≤ d) (h1 : d < 2 ^ 63) :
    (Hours d).Within (d / Hour).toNat ((d / Hour).toNat + 1) := by
  have hH : (0 : Int) < Hour := by decide
  have hq0 : 0 ≤ d / Hour := Int.ediv_nonneg h0 hH.le
  have hr0 : 0 ≤ d % Hour := Int.emod_nonneg d hH.ne'
  have hr1 : d % Hour < Hour := Int.emod_lt_of_pos d hH
  have hq1 : d / Hour < 2562048 := by
    apply Int.ediv_lt_of_lt_mul hH
    have : (2 : Int) ^ 63 < 2562048 * Hour := by decide
    omega
  unfold Hours
  simp only [Int.tdiv_eq_ediv h0 hH.le, Int.tmod_eq_emod h0 hH.le]
  have e1 : d / Hour = ((d / Hour).toNat : Int) := (Int.toNat_of_nonneg hq0).symm
  have e2 : d % Hour = ((d % Hour).toNat : Int) := (Int.toNat_of_nonneg hr0).symm
  have e3 : (60 * 60 * 1000000000 : Int) = ((3600000000000 : Nat) : Int) := by norm_num
  have w1 : (F64.ofInt (d / Hour)).Within (d / Hour).toNat (d / Hour).toNat := by
    rw [e1, Int.toNat_ofNat]
    exact F64.ofInt_within _ (by
      have : (2562048 : Nat) < 2 ^ 53 := by norm_num
      omega)
  have hHour : Hour = 3600000000000 := rfl
  have w2 : (F64.ofInt (d % Hour)).Within (d % Hour).toNat (d % Hour).toNat := by
    rw [e2, Int.toNat_ofNat]
    exact F64.ofInt_within _ (by
      have : (3600000000000 : Nat) < 2 ^ 53 := by norm_num
      omega)
  have w3 : (F64.ofInt (60 * 60 * 1000000000)).Within 3600000000000 3600000000000 := by
    rw [e3]
    exact F64.ofInt_within _ (by norm_num)
  have w4 := F64.div_within _ _ _ _ _ 0 1 w2 w3 (by norm_num) (by omega) (by omega) (by norm_num)
  have w5 := F64.add_within _ _ _ _ _ w1 w4 (by
    have : (2562048 : Nat) + 1 < 2 ^ 53 := by norm_num
    omega)
  simpa using w5

/-- For an age between 0 and the largest `time.Duration`, the day count of the
code is the number of whole days elapsed, or one more. -/
theorem daysOld_bracket (now t : Time) (h0 : 0 ≤ now.ns - t.ns) (h1 : now.ns - t.ns < 2 ^ 63) :
    wholeDays now t ≤ daysOld now t ∧ daysOld now t ≤ wholeDays now t + 1 := by
  have hH : (0 : Int) < Hour := by decide
  have hsince : Since now t = now.ns - t.ns := by
    unfold Since Time.Sub minDuration maxDuration
    simp only
    rw [if_neg (by omega), if_neg (by omega)]
  have hq0 : 0 ≤ (now.ns - t.ns) / Hour := Int.ediv_nonneg h0 hH.le
  have hw : wholeDays now t = (((now.ns - t.ns) / Hour).toNat / 24 : Nat) := by
    unfold wholeDays
    simp only [Hour] at hq0 ⊢
    omega
  have w1 := Hours_within (now.ns - t.ns) h0 h1
  have w2 : (F64.ofInt 24).Within 24 24 := by
    have := F64.ofInt_within 24 (by norm_num)
    simpa using this
  have w3 := F64.div_within _ _ _ _ _ (((now.ns - t.ns) / Hour).toNat / 24)
    (((now.ns - t.ns) / Hour).toNat / 24 + 1) w1 w2 (by norm_num) (by omega) (by omega)
    (by
      have hq1 : (now.ns - t.ns) / Hour < 2562048 := by
        apply Int.ediv_lt_of_lt_mul hH
        have : (2 : Int) ^ 63 < 2562048 * Hour := by decide
        omega
      have : (2562048 : Nat) < 2 ^ 53 := by norm_num
      omega)
  have w4 := F64.trunc_within _ _ _ w3
  unfold daysOld
  rw [hsince, hw]
  constructor
  · exact w4.1
  · have := w4.2
    push_cast at this ⊢
    exact this

/-- At the zero modification time, which `dirSize` leaves when `Info` fails,
the duration saturates: on November 1, 2026, 739920 days after the origin,
the day count is 106751. -/
theorem daysOld_zero_time :
    wholeDays ⟨63929088000000000000⟩ ⟨0⟩ = 739920 ∧
    daysOld ⟨63929088000000000000⟩ ⟨0⟩ = 106751 := by
  decide

/-! ## Filter -/

/-- One iteration keeps the result exactly when it is `Retained`. -/
theorem filterStep_eq (now : Time) (config : Config) (filtered : List Result) (r : Result) :
    filterStep now config filtered r =
      if Retained now config r then filtered ++ [r] else filtered := by
  unfold filterStep
  by_cases h : Retained now config r
  · obtain ⟨h1, h2, h3⟩ := h
    have e1 : ¬ (config.MinSize > 0 ∧ r.Size < config.MinSize) := fun ⟨a, b⟩ => by
      have := h1 a; omega
    have e2 : ¬ (config.MaxSize > 0 ∧ r.Size > config.MaxSize) := fun ⟨a, b⟩ => by
      have := h2 a; omega
    have e3 : config.OlderThan > 0 → ¬ daysOld now r.ModTime < config.OlderThan := fun a b => by
      have := h3 a; omega
    rw [if_neg e1, if_neg e2, if_pos (show Retained now config r from ⟨h1, h2, h3⟩)]
    split_ifs with a b
    · exact absurd b (e3 a)
    · rfl
    · rfl
  · rw [if_neg h]
    split_ifs with a b c d
    · rfl
    · rfl
    · rfl
    · exact absurd ⟨fun p => by omega, fun p => by omega, fun _ => by omega⟩ h
    · exact absurd ⟨fun p => by omega, fun p => by omega, fun p => absurd p c⟩ h

/-- The loop of `filterResults` started from any slice. -/
theorem foldl_filterStep (now : Time) (config : Config) (results filtered : List Result) :
    results.foldl (filterStep now config) filtered =
      filtered ++ results.filter (fun r => decide (Retained now config r)) := by
  induction results generalizing filtered with
  | nil => simp
  | cons r rest ih =>
    rw [List.foldl_cons, ih, filterStep_eq]
    by_cases h : Retained now config r <;> simp [List.filter_cons, h]

/-- The function `filterResults` is `List.filter` by `Retained`. -/
theorem filterResults_eq_filter (now : Time) (results : List Result) (config : Config) :
    filterResults now results config =
      results.filter (fun r => decide (Retained now config r)) := by
  simp [filterResults, foldl_filterStep]

/-- C3, the claim as stated fails: a directory modified 171 days less one
nanosecond ago has 170 whole days of age, so a threshold of 171 days excludes
it as the claim words the test; `filterResults` keeps it, because
`Hours()` rounds 4103.99999999999972 to 4104 in binary64. -/
theorem filterResults_whole_days_counterexample :
    wholeDays agedNow aged.ModTime = 170 ∧
    (olderThan 171).OlderThan = 171 ∧
    ¬ RetainedAsSpecified agedNow (olderThan 171) aged ∧
    filterResults agedNow [aged] (olderThan 171) = [aged] ∧
    filterResults agedNow [aged] (olderThan 171) ≠
      [aged].filter (fun r => decide (RetainedAsSpecified agedNow (olderThan 171) r)) := by
  decide

/-- C3 (amended): `filterResults` returns exactly the elements of `R`,
unmodified and in their original order, with `Size ≥ MinSize` when
`MinSize > 0`, `Size ≤ MaxSize` when `MaxSize > 0`, and
`int(time.Since(ModTime).Hours() / 24) ≥ OlderThan` when `OlderThan > 0`; the
output is a sublist of `R`, and is `R` when the three settings are 0.  The day
count is computed in binary64 on a duration saturated to 64 bits: below the
saturation, a result the whole days of `now - ModTime` would retain is
retained, and a result retained has at least `OlderThan - 1` whole days. -/
theorem filterResults_spec (now : Time) (R : List Result) (config : Config) :
    filterResults now R config = R.filter (fun r => decide (Retained now config r)) ∧
    (∀ r, r ∈ filterResults now R config ↔
      r ∈ R ∧
      (config.MinSize > 0 → config.MinSize ≤ r.Size) ∧
      (config.MaxSize > 0 → r.Size ≤ config.MaxSize) ∧
      (config.OlderThan > 0 → config.OlderThan ≤ daysOld now r.ModTime)) ∧
    (filterResults now R config).Sublist R ∧
    (config.MinSize = 0 ∧ config.MaxSize = 0 ∧ config.OlderThan = 0 →
      filterResults now R config = R) ∧
    (∀ r ∈ R, now.ns - r.ModTime.ns < 2 ^ 63 → RetainedAsSpecified now config r →
      r ∈ filterResults now R config) ∧
    (∀ r ∈ filterResults now R config, 0 ≤ now.ns - r.ModTime.ns →
      now.ns - r.ModTime.ns < 2 ^ 63 → config.OlderThan > 0 →
      config.OlderThan ≤ wholeDays now r.ModTime + 1) := by
  have hmem : ∀ r, r ∈ filterResults now R config ↔ r ∈ R ∧ Retained now config r := by
    intro r
    rw [filterResults_eq_filter, List.mem_filter, decide_eq_true_eq]
  refine ⟨filterResults_eq_filter now R config, ?_, ?_, ?_, ?_, ?_⟩
  · intro r
    rw [hmem]
    exact Iff.rfl
  · rw [filterResults_eq_filter]
    exact List.filter_sublist R
  · rintro ⟨h1, h2, h3⟩
    rw [filterResults_eq_filter]
    apply List.filter_eq_self.mpr
    intro r _
    simp [Retained, h1, h2, h3]
  · intro r hr hlt ⟨h1, h2, h3⟩
    refine (hmem r).mpr ⟨hr, h1, h2, fun hpos => ?_⟩
    have hw := h3 hpos
    have h0 : 0 ≤ now.ns - r.ModTime.ns := by
      unfold wholeDays at hw
      simp only [Hour] at hw
      omega
    exact le_trans hw (daysOld_bracket now r.ModTime h0 hlt).1
  · intro r hr h0 hlt hpos
    obtain ⟨_, _, _, h3⟩ := (hmem r).mp hr
    exact le_trans (h3 hpos) (daysOld_bracket now r.ModTime h0 hlt).2

/-- A use of `filterResults_spec`: two results, a size window that keeps one. -/
theorem filterResults_spec_witness :
    filterResults agedNow [aged, sample "b" 3 2 0] ⟨[], false, false, false, 5, 10, 0, false, ""⟩
      = [aged] := by
  rw [(filterResults_spec agedNow [aged, sample "b" 3 2 0]
    ⟨[], false, false, false, 5, 10, 0, false, ""⟩).1]
  decide

/-- C9: at one instant of evaluation `filterResults` is idempotent. -/
theorem filterResults_idempotent (now : Time) (R : List Result) (config : Config) :
    filterResults now (filterResults now R config) config = filterResults now R config := by
  simp only [filterResults_eq_filter, List.filter_filter, Bool.and_self]

/-! ## Export -/

/-- The slice `exportData` after the loop, from any non-nil start. -/
theorem foldl_goAppend {α β : Type} (f : β → α) (l : List β) (acc : List α) :
    l.foldl (fun data r => goAppend data (f r)) (some acc) = some (acc ++ l.map f) := by
  induction l generalizing acc with
  | nil => simp
  | cons x rest ih =>
    rw [List.foldl_cons, show goAppend (some acc) (f x) = some (acc ++ [f x]) from rfl, ih]
    simp

/-- For a non-empty result list the document is the array of the objects of
the results, in order. -/
theorem exportResults_nonempty (rfc3339 : Time → String) (r : Result) (rest : List Result) :
    exportResults rfc3339 true (r :: rest) =
      some (.arr ((r :: rest).map fun x =>
        .obj [("path", .path x.Path), ("size", .num x.Size), ("files", .num x.Files),
          ("dirs", .num x.Dirs), ("read_order", .num x.ReadOrder),
          ("modified_time", .str (rfc3339 x.ModTime))])) := by
  have h : exportData rfc3339 (r :: rest) =
      some ((r :: rest).map fun x =>
        ⟨x.Path, x.Size, x.Files, x.Dirs, x.ReadOrder, rfc3339 x.ModTime⟩) := by
    unfold exportData
    rw [List.foldl_cons, show goAppend none (⟨r.Path, r.Size, r.Files, r.Dirs, r.ReadOrder,
      rfc3339 r.ModTime⟩ : ExportResult) = some [⟨r.Path, r.Size, r.Files, r.Dirs, r.ReadOrder,
      rfc3339 r.ModTime⟩] from rfl]
    rw [foldl_goAppend (fun x : Result =>
      (⟨x.Path, x.Size, x.Files, x.Dirs, x.ReadOrder, rfc3339 x.ModTime⟩ : ExportResult))]
    rfl
  simp only [exportResults, if_true, h, encodeSlice, List.map_map]
  rfl

/-- C10, at the empty result list: `exportData` is still the nil slice, the
document written is `null`, not the empty array. -/
theorem exportResults_empty_is_null (rfc3339 : Time → String) :
    exportResults rfc3339 true [] = some Json.null ∧
    exportResults rfc3339 true [] ≠ some (Json.arr []) := by
  constructor
  · rfl
  · intro h
    simp [exportResults, exportData, encodeSlice] at h

/-! ## Sizer -/

/-- A path strictly below `root` is not `root`. -/
theorem append_ne_self_of_ne_nil (root q : Path) (hq : q ≠ []) : root ++ q ≠ root := by
  intro h
  have := congrArg List.length h
  rw [List.length_append] at this
  have : q.length = 0 := by omega
  exact hq (List.length_eq_zero.mp this)

/-- An `int64` value is its own reduction. -/
theorem wrap64_of_fits (x : Int) (h0 : -9223372036854775808 ≤ x)
    (h1 : x < 9223372036854775808) : wrap64 x = x := by
  unfold wrap64
  omega

/-- Reduction is idempotent. -/
theorem wrap64_idem (x : Int) : wrap64 (wrap64 x) = wrap64 x := by
  unfold wrap64
  omega

/-- Two `int64` additions in a row reduce the exact sum. -/
theorem wrap64_add (a b : Int) : wrap64 (wrap64 a + b) = wrap64 (a + b) := by
  unfold wrap64
  omega

/-- Adding nothing to a result in range leaves it. -/
theorem Result.bump_zero (res : Result) (h : res.InRange) : res.bump 0 0 0 = res := by
  obtain ⟨h1, h2, h3⟩ := h
  cases res
  simp only [Result.bump, add_zero] at h1 h2 h3 ⊢
  rw [h1, h2, h3]

/-- Additions in a row add up. -/
theorem Result.bump_bump (res : Result) (f d s f1 d1 s1 : Int) :
    (res.bump f d s).bump f1 d1 s1 = res.bump (f + f1) (d + d1) (s + s1) := by
  simp only [Result.bump, wrap64_add, add_assoc]

/-- The counters stay in range. -/
theorem Result.bump_inRange (res : Result) (f d s : Int) : (res.bump f d s).InRange :=
  ⟨wrap64_idem _, wrap64_idem _, wrap64_idem _⟩

/-- The call of the closure of `dirSize` on a file whose `Info` succeeds. -/
theorem dirSizeFn_file (root path : Path) (res : Result) (h : res.InRange) (name : String)
    (symlink : Bool) (info : FileInfo) :
    dirSizeFn root res path (some (.file name symlink (some info))) false =
      (res.bump 1 0 info.Size, none) := by
  obtain ⟨_, h2, _⟩ := h
  simp only [dirSizeFn, Entry.IsDir, Entry.Info, Result.bump, add_zero, h2]
  rfl

/-- The call of the closure of `dirSize` on a directory below the root. -/
theorem dirSizeFn_dir (root path : Path) (hne : path ≠ root) (res : Result) (h : res.InRange)
    (name : String) (info : Option FileInfo) (readErr : Bool) (entries : List Entry) :
    dirSizeFn root res path (some (.dir name info readErr entries)) false =
      (res.bump 0 1 0, none) := by
  obtain ⟨h1, _, h3⟩ := h
  simp only [dirSizeFn, Entry.IsDir, Result.bump, add_zero, h1, h3, hne]
  rfl

mutual
/-- Below its root, the walk of `dirSize` adds to `res`, in `int64`, the
directories, the files and the bytes of the entry, and nothing else. -/
theorem walkDir_dirSizeFn (root q : Path) (hq : q ≠ []) : ∀ (d : Entry) (res : Result),
    res.InRange →
    walkDir (dirSizeFn root) (root ++ q) d res =
      (res.bump (d.sumOver statFile) (d.sumOver isDirectory) (d.sumOver statBytes), none)
  | .file name symlink none, res, h => by
    have : dirSizeFn root res (root ++ q) (some (.file name symlink none)) false =
        (res, none) := by
      simp [dirSizeFn, Entry.IsDir, Entry.Info]
    simp only [walkDir, this, Entry.sumOver, statFile, isDirectory, statBytes]
    rw [Result.bump_zero res h]
  | .file name symlink (some info), res, h => by
    simp only [walkDir, dirSizeFn_file root _ res h, Entry.sumOver, statFile, isDirectory,
      statBytes]
  | .dir name info readErr entries, res, h => by
    have hne := append_ne_self_of_ne_nil root q hq
    have ih := walkEntries_dirSizeFn root q entries (res.bump 0 1 0)
      (Result.bump_inRange res 0 1 0)
    have herr : dirSizeFn root (res.bump 0 1 0) (root ++ q)
        (some (.dir name info readErr entries)) true = (res.bump 0 1 0, none) := by
      simp [dirSizeFn]
    cases readErr <;>
      simp only [walkDir, dirSizeFn_dir root _ hne res h, herr, ih, Result.bump_bump,
        Entry.sumOver, statFile, isDirectory, statBytes, if_true, if_false,
        Bool.false_eq_true]
/-- The same for the entries of a directory at or below the root. -/
theorem walkEntries_dirSizeFn (root q : Path) : ∀ (entries : List Entry) (res : Result),
    res.InRange →
    walkEntries (dirSizeFn root) (root ++ q) entries res =
      (res.bump (sumOverIn statFile entries) (sumOverIn isDirectory entries)
        (sumOverIn statBytes entries), none)
  | [], res, h => by
    simp only [walkEntries, sumOverIn]
    rw [Result.bump_zero res h]
  | d :: rest, res, h => by
    have h1 := walkDir_dirSizeFn root (q ++ [d.Name]) (by simp) d res h
    have h2 := walkEntries_dirSizeFn root q rest
      (res.bump (d.sumOver statFile) (d.sumOver isDirectory) (d.sumOver statBytes))
      (Result.bump_inRange _ _ _ _)
    rw [← List.append_assoc] at h1
    simp only [walkEntries, h1, h2, Result.bump_bump, sumOverIn]
end

/-- What `dirSize` returns for a path that resolves to the entry `t`. -/
theorem dirSize_of_lstat (fs : Entry) (root : Path) (t : Entry) (h : fs.lstat root = some t) :
    dirSize fs root =
      ⟨root, wrap64 (t.sumOver statFile), wrap64 (t.sumOver isDirectory),
        wrap64 (t.sumOver statBytes), 0, rootModTime t⟩ := by
  have hz : wrap64 0 = 0 := by decide
  have h1 : wrap64 1 = 1 := by decide
  have hres : ({ Result.zero with Path := root } : Result) = ⟨root, 0, 0, 0, 0, ⟨0⟩⟩ := rfl
  have h0 : (⟨root, 0, 0, 0, 0, ⟨0⟩⟩ : Result).InRange := ⟨hz, hz, hz⟩
  unfold dirSize WalkDir
  rw [h, hres]
  cases t with
  | file name symlink info =>
    cases info with
    | none =>
      have e : dirSizeFn root ⟨root, 0, 0, 0, 0, ⟨0⟩⟩ root
          (some (.file name symlink none)) false = (⟨root, 0, 0, 0, 0, ⟨0⟩⟩, none) := by
        simp [dirSizeFn, Entry.IsDir, Entry.Info]
      simp only [walkDir, e, Entry.sumOver, statFile, isDirectory, statBytes, rootModTime, hz]
    | some info =>
      have e := dirSizeFn_file root root ⟨root, 0, 0, 0, 0, ⟨0⟩⟩ h0 name symlink info
      simp only [walkDir, e, Entry.sumOver, statFile, isDirectory, statBytes, rootModTime,
        Result.bump, zero_add]
  | dir name info readErr entries =>
    have hfirst : dirSizeFn root ⟨root, 0, 0, 0, 0, ⟨0⟩⟩ root
        (some (.dir name info readErr entries)) false =
        (⟨root, 0, 1, 0, 0, rootModTime (.dir name info readErr entries)⟩, none) := by
      cases info <;> simp [dirSizeFn, Entry.IsDir, Entry.Info, rootModTime, h1]
    have hr : (⟨root, 0, 1, 0, 0, rootModTime (.dir name info readErr entries)⟩ :
        Result).InRange := ⟨hz, h1, hz⟩
    have ih := walkEntries_dirSizeFn root [] entries _ hr
    simp only [List.append_nil] at ih
    have herr : dirSizeFn root
        (⟨root, 0, 1, 0, 0, rootModTime (.dir name info readErr entries)⟩ : Result) root
        (some (.dir name info readErr entries)) true =
        (⟨root, 0, 1, 0, 0, rootModTime (.dir name info readErr entries)⟩, none) := by
      simp [dirSizeFn]
    cases readErr <;>
      simp only [walkDir, hfirst, herr, ih, Result.bump, Entry.sumOver, statFile, isDirectory,
        statBytes, zero_add, if_true, if_false, Bool.false_eq_true]

/-- A path that does not resolve gives the zero result with that path. -/
theorem dirSize_of_lstat_none (fs : Entry) (root : Path) (h : fs.lstat root = none) :
    dirSize fs root = ⟨root, 0, 0, 0, 0, ⟨0⟩⟩ := by
  unfold dirSize WalkDir
  rw [h]
  simp [dirSizeFn, Result.zero]

/-! ## Locator -/

mutual
/-- Induction on a tree: a property of every file, that passes from the
entries of a directory to the directory, holds of every entry. -/
theorem Entry.induct {P : Entry → Prop} (hfile : ∀ n s i, P (.file n s i))
    (hdir : ∀ n i r es, (∀ c ∈ es, P c) → P (.dir n i r es)) : ∀ t, P t
  | .file n s i => hfile n s i
  | .dir n i r es => hdir n i r es (Entry.induct_list hfile hdir es)
/-- The list part of `Entry.induct`. -/
theorem Entry.induct_list {P : Entry → Prop} (hfile : ∀ n s i, P (.file n s i))
    (hdir : ∀ n i r es, (∀ c ∈ es, P c) → P (.dir n i r es)) : ∀ es : List Entry, ∀ c ∈ es, P c
  | [], _, h => absurd h (List.not_mem_nil _)
  | d :: rest, c, h => by
    rcases List.mem_cons.mp h with rfl | h
    · exact Entry.induct hfile hdir _
    · exact Entry.induct_list hfile hdir rest c h
end

mutual
/-- The walk of `findNodeModules` appends the top-level matches of the entry,
in pre-order, and returns no error. -/
theorem walkDir_findFn (path : Path) : ∀ (d : Entry) (found : List Path),
    walkDir findFn path d found = (found ++ topMatches path d, none)
  | .file name symlink info, found => by
    simp [walkDir, findFn, Entry.IsDir, topMatches]
  | .dir name info readErr entries, found => by
    have ih := walkEntries_findFn path entries
    by_cases hn : name = "node_modules" <;> cases readErr <;>
      simp [walkDir, findFn, Entry.IsDir, Entry.Name, topMatches, hn, ih]
/-- The same for the entries of a directory. -/
theorem walkEntries_findFn (path : Path) : ∀ (entries : List Entry) (found : List Path),
    walkEntries findFn path entries found = (found ++ topMatchesIn path entries, none)
  | [], found => by simp [walkEntries, topMatchesIn]
  | d :: rest, found => by
    have h1 := walkDir_findFn (path ++ [d.Name]) d
    have h2 := walkEntries_findFn path rest
    simp [walkEntries, h1, h2, topMatchesIn]
end

/-- What `findNodeModules` returns for a root that resolves to the tree `t`. -/
theorem findNodeModules_of_lstat (fs : Entry) (root : Path) (t : Entry)
    (h : fs.lstat root = some t) :
    findNodeModules fs root = (topMatches root t, none) := by
  unfold findNodeModules WalkDir
  rw [h]
  simp [walkDir_findFn]

/-- Membership in the matches below a list of entries. -/
theorem mem_topMatchesIn (path : Path) (p : Path) (entries : List Entry) :
    p ∈ topMatchesIn path entries ↔ ∃ c ∈ entries, p ∈ topMatches (path ++ [c.Name]) c := by
  induction entries with
  | nil => simp [topMatchesIn]
  | cons d rest ih => simp [topMatchesIn, ih]

/-- Every top-level match is a directory named `node_modules` reached through
directories of other names. -/
theorem reach_of_mem_topMatches : ∀ (t : Entry) (path p : Path), p ∈ topMatches path t →
    ∃ q above e, Reach t q above e ∧ p = path ++ q ∧ e.IsDir = true ∧
      e.Name = "node_modules" ∧ ∀ a ∈ above, a.Name ≠ "node_modules" := by
  intro t
  induction t using Entry.induct with
  | hfile n s i => intro path p h; simp [topMatches] at h
  | hdir n i r es ih =>
    intro path p h
    by_cases hn : n = "node_modules"
    · simp [topMatches, hn] at h
      subst hn
      exact ⟨[], [], _, Reach.here _, by simp [h], rfl, rfl, by simp⟩
    · simp only [topMatches, hn, if_false] at h
      obtain ⟨c, hc, hp⟩ := (mem_topMatchesIn path p es).mp h
      obtain ⟨q, above, e, hr, hpq, hd, hname, habove⟩ := ih c hc _ _ hp
      refine ⟨c.Name :: q, _, e, Reach.down hc hr, by simp [hpq], hd, hname, ?_⟩
      intro a ha
      rcases List.mem_cons.mp ha with rfl | ha
      · exact hn
      · exact habove a ha

/-- Every directory named `node_modules` reached through directories of other
names is a top-level match. -/
theorem mem_topMatches_of_reach {t : Entry} {q : Path} {above : List Entry} {e : Entry}
    (hr : Reach t q above e) : ∀ path : Path, e.IsDir = true → e.Name = "node_modules" →
    (∀ a ∈ above, a.Name ≠ "node_modules") → path ++ q ∈ topMatches path t := by
  induction hr with
  | here t =>
    intro path hd hn _
    cases t with
    | file n s i => simp [Entry.IsDir] at hd
    | dir n i r es =>
      simp only [Entry.Name] at hn
      simp [topMatches, hn]
  | @down name info readErr entries c q above e hc _ ih =>
    intro path hd hn habove
    have h1 : name ≠ "node_modules" := habove _ (List.mem_cons_self _ _)
    simp only [topMatches, h1, if_false]
    refine (mem_topMatchesIn path _ entries).mpr ⟨c, hc, ?_⟩
    have := ih (path ++ [c.Name]) hd hn (fun a ha => habove a (List.mem_cons_of_mem _ ha))
    simpa using this

/-- The names along a relative path: those of the directories above are the
path without its last component, after the name of the tree; the last
component is the name of the entry reached. -/
theorem names_of_reach {t : Entry} {q : Path} {above : List Entry} {e : Entry}
    (hr : Reach t q above e) :
    above.map Entry.Name = (t.Name :: q).dropLast ∧ (t.Name :: q).getLast? = some e.Name := by
  induction hr with
  | here t => simp
  | @down name info readErr entries c q above e _ _ ih =>
    obtain ⟨h1, h2⟩ := ih
    constructor
    · simp [Entry.Name, h1, List.dropLast]
    · rw [List.getLast?_cons_cons]
      exact h2

/-- No top-level match lies inside another one. -/
theorem topMatches_antichain (t : Entry) (root p1 p2 : Path) (h1 : p1 ∈ topMatches root t)
    (h2 : p2 ∈ topMatches root t) (hp : p1 <+: p2) : p1 = p2 := by
  obtain ⟨q1, above1, e1, hr1, rfl, _, hn1, _⟩ := reach_of_mem_topMatches t root p1 h1
  obtain ⟨q2, above2, e2, hr2, rfl, _, _, ha2⟩ := reach_of_mem_topMatches t root p2 h2
  obtain ⟨r, rfl⟩ := (List.prefix_append_right_inj root).mp hp
  by_cases hr : r = []
  · simp [hr]
  · exfalso
    have hlast := (names_of_reach hr1).2
    have habove := (names_of_reach hr2).1
    rw [← List.cons_append, List.dropLast_append_of_ne_nil _ hr] at habove
    have hmem : e1.Name ∈ above2.map Entry.Name := by
      rw [habove]
      exact List.mem_append_left _ (List.mem_of_getLast?_eq_some hlast)
    obtain ⟨a, ha, hname⟩ := List.mem_map.mp hmem
    exact ha2 a ha (hname.trans hn1)

/-- Every top-level match extends the path of the tree. -/
theorem prefix_of_mem_topMatches (t : Entry) (path p : Path) (h : p ∈ topMatches path t) :
    path <+: p := by
  obtain ⟨q, _, _, _, rfl, _⟩ := reach_of_mem_topMatches t path p h
  exact List.prefix_append _ _

/-- The property `uniqueNamesIn` entry by entry. -/
theorem uniqueNamesIn_iff (entries : List Entry) :
    uniqueNamesIn entries ↔ ∀ c ∈ entries, c.UniqueNames := by
  induction entries with
  | nil => simp [uniqueNamesIn]
  | cons d rest ih => simp [uniqueNamesIn, ih]

/-- Entries of distinct names have distinct matches. -/
theorem nodup_topMatchesIn (path : Path) (entries : List Entry)
    (h1 : ∀ c ∈ entries, ∀ p : Path, (topMatches p c).Nodup)
    (h2 : (entries.map Entry.Name).Nodup) : (topMatchesIn path entries).Nodup := by
  induction entries with
  | nil => simp [topMatchesIn]
  | cons d rest ih =>
    rw [List.map_cons, List.nodup_cons] at h2
    simp only [topMatchesIn]
    refine List.nodup_append.mpr ⟨h1 d (List.mem_cons_self _ _) _,
      ih (fun c hc => h1 c (List.mem_cons_of_mem _ hc)) h2.2, ?_⟩
    intro p hp1 hp2
    obtain ⟨c, hc, hp3⟩ := (mem_topMatchesIn path p rest).mp hp2
    have e1 := prefix_of_mem_topMatches d _ p hp1
    have e2 := prefix_of_mem_topMatches c _ p hp3
    have e3 : path ++ [d.Name] = path ++ [c.Name] :=
      (List.prefix_of_prefix_length_le e1 e2 (by simp)).eq_of_length (by simp)
    have e4 : d.Name = c.Name := by simpa using e3
    exact h2.1 (e4 ▸ List.mem_map_of_mem _ hc)

/-- In a tree without duplicate names every match is found once. -/
theorem nodup_topMatches : ∀ (t : Entry), t.UniqueNames → ∀ path : Path,
    (topMatches path t).Nodup := by
  intro t
  induction t using Entry.induct with
  | hfile n s i => intro _ path; simp [topMatches]
  | hdir n i r es ih =>
    intro hu path
    obtain ⟨hu1, hu2⟩ := hu
    by_cases hn : n = "node_modules"
    · simp [topMatches, hn]
    · simp only [topMatches, hn, if_false]
      exact nodup_topMatchesIn path es
        (fun c hc p => ih c hc ((uniqueNamesIn_iff es).mp hu2 c hc) p) hu1

/-- C6: for a root that resolves to the tree `t`, `findNodeModules` returns,
in walk order and with a nil error, exactly the directories named
`node_modules` that are in no directory of that name: every path returned
names such a directory, a non-directory is never returned, no path returned
lies inside another, and where no directory has two entries of one name each
such directory is returned exactly once. -/
theorem findNodeModules_spec (fs : Entry) (root : Path) (t : Entry)
    (h : fs.lstat root = some t) :
    findNodeModules fs root = (topMatches root t, none) ∧
    (∀ p, p ∈ (findNodeModules fs root).1 ↔
      ∃ q above e, Reach t q above e ∧ p = root ++ q ∧ e.IsDir = true ∧
        e.Name = "node_modules" ∧ ∀ a ∈ above, a.Name ≠ "node_modules") ∧
    (∀ p1 ∈ (findNodeModules fs root).1, ∀ p2 ∈ (findNodeModules fs root).1,
      p1 <+: p2 → p1 = p2) ∧
    (t.UniqueNames → (findNodeModules fs root).1.Nodup) := by
  rw [findNodeModules_of_lstat fs root t h]
  refine ⟨rfl, ?_, ?_, ?_⟩
  · intro p
    constructor
    · exact reach_of_mem_topMatches t root p
    · rintro ⟨q, above, e, hr, rfl, hd, hn, ha⟩
      exact mem_topMatches_of_reach hr root hd hn ha
  · intro p1 h1 p2 h2 hp
    exact topMatches_antichain t root p1 p2 h1 h2 hp
  · intro hu
    exact nodup_topMatches t hu root

/-- A use of `findNodeModules_spec`, on the tree `nested`: the two top-level
matches are found, in walk order; the file named `node_modules` and the
directory nested in a match are not. -/
theorem findNodeModules_spec_witness :
    nested.lstat [] = some nested ∧
    findNodeModules nested [] = ([["a", "node_modules"], ["b", "node_modules"]], none) :=
  ⟨rfl, (findNodeModules_spec nested [] nested rfl).1.trans (by decide)⟩

/-! ## Sizer: the statements -/

mutual
/-- The sum of a sum of weights. -/
theorem sumOver_add (w1 w2 : Entry → Int) : ∀ t : Entry,
    t.sumOver (fun e => w1 e + w2 e) = t.sumOver w1 + t.sumOver w2
  | .file _ _ _ => by simp [Entry.sumOver]
  | .dir _ _ _ entries => by
    have ih := sumOverIn_add w1 w2 entries
    simp only [Entry.sumOver, ih]
    ring
/-- The same over a list of entries. -/
theorem sumOverIn_add (w1 w2 : Entry → Int) : ∀ entries : List Entry,
    sumOverIn (fun e => w1 e + w2 e) entries = sumOverIn w1 entries + sumOverIn w2 entries
  | [] => by simp [sumOverIn]
  | d :: rest => by
    have h1 := sumOver_add w1 w2 d
    have h2 := sumOverIn_add w1 w2 rest
    simp only [sumOverIn, h1, h2]
    ring
end

/-- The entries `dirSize` counts as files are the regular files and the
symbolic links. -/
theorem statFile_eq : statFile = fun e => regularFile e + linkFile e := by
  funext e
  rcases e with ⟨_, _ | _, _ | _⟩ | _ <;> simp [statFile, regularFile, linkFile]

/-- The bytes `dirSize` sums are those of the regular files and of the
symbolic links. -/
theorem statBytes_eq : statBytes = fun e => regularBytes e + linkBytes e := by
  funext e
  rcases e with ⟨_, _ | _, _ | _⟩ | _ <;> simp [statBytes, regularBytes, linkBytes]

/-- C7, the claim as stated fails: a matched directory holding one symbolic
link of 7 bytes has no file that is not a link, yet `dirSize` reports 1 file
and 7 bytes; the link is counted, not skipped. -/
theorem dirSize_symlink_counterexample :
    linked.lstat ["node_modules"] = some linkedMatch ∧
    linkedMatch.sumOver regularFile = 0 ∧
    linkedMatch.sumOver regularBytes = 0 ∧
    (dirSize linked ["node_modules"]).Files = 1 ∧
    (dirSize linked ["node_modules"]).Size = 7 :=
  ⟨rfl, by decide, by decide, by decide, by decide⟩

/-- C7 (amended): for a path that resolves to the tree `t`, `dirSize` returns
`Files` = the number of non-directory entries of the tree whose `Info`
succeeds, which are its regular files and its symbolic links, `Size` = the sum
of the sizes `Info` reports for them (for a link, the size of the link), and
`Dirs` = the number of directories of the tree, the matched directory counting
as one, each as an `int64`: the number itself when it fits in 64 bits, and
reduced modulo `2^64` otherwise.  Only the entries whose `Info` fails
contribute nothing.  `Path` is the path given, `ReadOrder` is 0 and `ModTime`
is that of the matched directory. -/
theorem dirSize_spec (fs : Entry) (root : Path) (t : Entry) (h : fs.lstat root = some t) :
    dirSize fs root =
      ⟨root, wrap64 (t.sumOver statFile), wrap64 (t.sumOver isDirectory),
        wrap64 (t.sumOver statBytes), 0, rootModTime t⟩ ∧
    t.sumOver statFile = t.sumOver regularFile + t.sumOver linkFile ∧
    t.sumOver statBytes = t.sumOver regularBytes + t.sumOver linkBytes ∧
    (∀ name info readErr entries, t = .dir name info readErr entries →
      t.sumOver isDirectory = 1 + sumOverIn isDirectory entries) ∧
    (-2 ^ 63 ≤ t.sumOver statFile → t.sumOver statFile < 2 ^ 63 →
      (dirSize fs root).Files = t.sumOver regularFile + t.sumOver linkFile) ∧
    (-2 ^ 63 ≤ t.sumOver statBytes → t.sumOver statBytes < 2 ^ 63 →
      (dirSize fs root).Size = t.sumOver regularBytes + t.sumOver linkBytes) ∧
    (-2 ^ 63 ≤ t.sumOver isDirectory → t.sumOver isDirectory < 2 ^ 63 →
      (dirSize fs root).Dirs = t.sumOver isDirectory) := by
  have hf : t.sumOver statFile = t.sumOver regularFile + t.sumOver linkFile := by
    rw [statFile_eq, sumOver_add]
  have hb : t.sumOver statBytes = t.sumOver regularBytes + t.sumOver linkBytes := by
    rw [statBytes_eq, sumOver_add]
  have hfit : ∀ x : Int, -2 ^ 63 ≤ x → x < 2 ^ 63 → wrap64 x = x := by
    intro x h0 h1
    exact wrap64_of_fits x (by norm_num at h0; exact h0) (by norm_num at h1; exact h1)
  rw [dirSize_of_lstat fs root t h]
  refine ⟨rfl, hf, hb, ?_, ?_, ?_, ?_⟩
  · rintro name info readErr entries rfl
    simp [Entry.sumOver, isDirectory]
  · intro h0 h1
    show wrap64 (t.sumOver statFile) = _
    rw [hfit _ h0 h1, hf]
  · intro h0 h1
    show wrap64 (t.sumOver statBytes) = _
    rw [hfit _ h0 h1, hb]
  · intro h0 h1
    exact hfit _ h0 h1

/-- A use of `dirSize_spec`, on the scenario of the specification: the match
`a/node_modules` has 2 files, 10 bytes, and counts as 1 directory; the match
`b/node_modules` has 1 file, 5 bytes, and counts as 1 directory; the two
results total 15 bytes, 3 files and 2 directories, and the table of
`printSummary` shows `a/node_modules` first. -/
theorem dirSize_spec_witness :
    scenario.lstat ["a", "node_modules"] =
      some (folder "node_modules" [plain "x.js" 4, plain "y.js" 6]) ∧
    dirSize scenario ["a", "node_modules"] = ⟨["a", "node_modules"], 2, 1, 10, 0, ⟨0⟩⟩ ∧
    dirSize scenario ["b", "node_modules"] = ⟨["b", "node_modules"], 1, 1, 5, 0, ⟨0⟩⟩ ∧
    (dirSize scenario ["a", "node_modules"]).Size = 10 ∧
    printSummary sortBySize
        [dirSize scenario ["b", "node_modules"], dirSize scenario ["a", "node_modules"]] =
      ⟨[⟨["a", "node_modules"], 2, 1, 10, 0, ⟨0⟩⟩, ⟨["b", "node_modules"], 1, 1, 5, 0, ⟨0⟩⟩],
        15, 3, 2⟩ :=
  ⟨rfl,
    (dirSize_spec scenario ["a", "node_modules"]
      (folder "node_modules" [plain "x.js" 4, plain "y.js" 6]) rfl).1.trans (by decide),
    (dirSize_spec scenario ["b", "node_modules"]
      (folder "node_modules" [plain "z.js" 5]) rfl).1.trans (by decide),
    ((dirSize_spec scenario ["a", "node_modules"]
      (folder "node_modules" [plain "x.js" 4, plain "y.js" 6]) rfl).2.2.2.2.2.1
        (by decide) (by decide)).trans (by decide),
    by decide⟩

/-- Beyond 64 bits the sum wraps around: a match holding files of `2^63 - 1`
bytes and of 1 byte, `2^63` bytes in all, is reported with the size `-2^63`. -/
theorem dirSize_wraps :
    (folder "node_modules" [plain "big" 9223372036854775807, plain "one" 1]).sumOver statBytes =
      9223372036854775808 ∧
    (dirSize sparse ["node_modules"]).Size = -9223372036854775808 := by
  decide

/-- The totals of `printSummary` are `int64` as well: results of `2^63 - 1`
bytes and of 1 byte total `-2^63`. -/
theorem printSummary_wraps :
    (printSummary sortBySize
      [sample "a" 9223372036854775807 1 0, sample "b" 1 2 0]).totalSize =
      -9223372036854775808 := by
  decide

/-! ## Worker pools -/

/-- A list with an element at index `i` splits around it, and `set` replaces
the element in the middle. -/
theorem exists_split_of_getElem? {α : Type} : ∀ {l : List α} {i : Nat} {w : α},
    l[i]? = some w → ∃ pre post, l = pre ++ w :: post ∧ ∀ w1, l.set i w1 = pre ++ w1 :: post
  | [], i, w, h => by simp at h
  | x :: xs, 0, w, h => by
    simp at h
    subst h
    exact ⟨[], xs, rfl, fun _ => rfl⟩
  | x :: xs, i + 1, w, h => by
    simp at h
    obtain ⟨pre, post, h1, h2⟩ := exists_split_of_getElem? h
    exact ⟨x :: pre, post, by simp [h1], fun w1 => by simp [h2]⟩

/-- The jobs in hand of two groups of workers. -/
theorem heldJobs_append {J O : Type} (a b : List (Worker J O)) :
    heldJobs (a ++ b) = heldJobs a ++ heldJobs b := by
  induction a with
  | nil => rfl
  | cons w ws ih => simp [heldJobs, ih]

/-- The weight of two groups of workers. -/
theorem totalWeight_append {J O : Type} (a b : List (Worker J O)) :
    totalWeight (a ++ b) = totalWeight a + totalWeight b := by
  induction a with
  | nil => simp [totalWeight]
  | cons w ws ih => simp [totalWeight, ih, Nat.add_assoc]

/-- The caller sends the next job. -/
theorem Pool.step_produce_cons {E J O A : Type} (exec : E → J → E × O) (commit : A → O → A)
    (s : Pool E J O A) {j : J} {rest : List J} (h : s.pending = j :: rest) :
    Pool.step exec commit s .produce = { s with pending := rest, queue := s.queue ++ [j] } := by
  simp only [Pool.step, h]

/-- The caller closes the channel. -/
theorem Pool.step_produce_nil {E J O A : Type} (exec : E → J → E × O) (commit : A → O → A)
    (s : Pool E J O A) (h : s.pending = []) :
    Pool.step exec commit s .produce = { s with closed := true } := by
  simp only [Pool.step, h]

/-- There is no worker of that index. -/
theorem Pool.step_work_none {E J O A : Type} (exec : E → J → E × O) (commit : A → O → A)
    (s : Pool E J O A) {i : Nat} (h : s.workers[i]? = none) :
    Pool.step exec commit s (.work i) = s := by
  simp only [Pool.step, h]

/-- An idle worker facing an empty channel. -/
theorem Pool.step_work_idle_nil {E J O A : Type} (exec : E → J → E × O) (commit : A → O → A)
    (s : Pool E J O A) {i : Nat} (h : s.workers[i]? = some .idle) (hq : s.queue = []) :
    Pool.step exec commit s (.work i) = s := by
  simp only [Pool.step, h, hq]

/-- An idle worker receives a job. -/
theorem Pool.step_work_idle_cons {E J O A : Type} (exec : E → J → E × O) (commit : A → O → A)
    (s : Pool E J O A) {i : Nat} {j : J} {q : List J} (h : s.workers[i]? = some .idle)
    (hq : s.queue = j :: q) :
    Pool.step exec commit s (.work i) =
      { s with queue := q, workers := s.workers.set i (.holding j) } := by
  simp only [Pool.step, h, hq]

/-- A worker runs the job it holds. -/
theorem Pool.step_work_holding {E J O A : Type} (exec : E → J → E × O) (commit : A → O → A)
    (s : Pool E J O A) {i : Nat} {j : J} (h : s.workers[i]? = some (.holding j)) :
    Pool.step exec commit s (.work i) =
      { s with env := (exec s.env j).1,
               workers := s.workers.set i (.finished j (exec s.env j).2) } := by
  simp only [Pool.step, h]

/-- A worker publishes the outcome of its job. -/
theorem Pool.step_work_finished {E J O A : Type} (exec : E → J → E × O) (commit : A → O → A)
    (s : Pool E J O A) {i : Nat} {j : J} {o : O} (h : s.workers[i]? = some (.finished j o)) :
    Pool.step exec commit s (.work i) =
      { s with acc := commit s.acc o, log := s.log ++ [(j, o)],
               workers := s.workers.set i .idle } := by
  simp only [Pool.step, h]

/-- A transition keeps the number of workers. -/
theorem Pool.step_workers_length {E J O A : Type} (exec : E → J → E × O) (commit : A → O → A)
    (s : Pool E J O A) (a : Action) :
    (Pool.step exec commit s a).workers.length = s.workers.length := by
  cases a with
  | produce =>
    cases hp : s.pending with
    | nil => rw [Pool.step_produce_nil _ _ _ hp]
    | cons j rest => rw [Pool.step_produce_cons _ _ _ hp]
  | work i =>
    cases hw : s.workers[i]? with
    | none => rw [Pool.step_work_none _ _ _ hw]
    | some w =>
      cases w with
      | idle =>
        cases hq : s.queue with
        | nil => rw [Pool.step_work_idle_nil _ _ _ hw hq]
        | cons j q => rw [Pool.step_work_idle_cons _ _ _ hw hq]; simp
      | holding j => rw [Pool.step_work_holding _ _ _ hw]; simp
      | finished j o => rw [Pool.step_work_finished _ _ _ hw]; simp

/-- A transition neither loses nor duplicates a job. -/
theorem Pool.step_jobs {E J O A : Type} [DecidableEq J] (exec : E → J → E × O)
    (commit : A → O → A) (s : Pool E J O A) (a : Action) :
    (Pool.step exec commit s a).jobs.Perm s.jobs := by
  rw [List.perm_iff_count]
  intro x
  cases a with
  | produce =>
    cases hp : s.pending with
    | nil => rw [Pool.step_produce_nil _ _ _ hp]; simp [Pool.jobs, hp]
    | cons j rest =>
      rw [Pool.step_produce_cons _ _ _ hp]
      simp only [Pool.jobs, hp, List.count_append, List.count_cons, List.count_nil]
      omega
  | work i =>
    cases hw : s.workers[i]? with
    | none => rw [Pool.step_work_none _ _ _ hw]
    | some w =>
      obtain ⟨pre, post, h1, h2⟩ := exists_split_of_getElem? hw
      cases w with
      | idle =>
        cases hq : s.queue with
        | nil => rw [Pool.step_work_idle_nil _ _ _ hw hq]
        | cons j q =>
          rw [Pool.step_work_idle_cons _ _ _ hw hq]
          simp only [Pool.jobs, hq, h2]
          rw [h1]
          simp only [heldJobs_append, heldJobs, Worker.jobs, List.count_append, List.count_cons,
            List.count_nil]
          omega
      | holding j =>
        rw [Pool.step_work_holding _ _ _ hw]
        simp only [Pool.jobs, h2]
        rw [h1]
        simp only [heldJobs_append, heldJobs, Worker.jobs]
      | finished j o =>
        rw [Pool.step_work_finished _ _ _ hw]
        simp only [Pool.jobs, h2]
        rw [h1]
        simp only [heldJobs_append, heldJobs, Worker.jobs, List.count_append, List.count_cons,
          List.count_nil, List.map_append, List.map_cons, List.map_nil]
        omega

/-- A transition keeps the published value in step with the history. -/
theorem Pool.step_acc {E J O A : Type} (exec : E → J → E × O) (commit : A → O → A)
    (acc0 : A) (s : Pool E J O A) (a : Action)
    (h : s.acc = (s.log.map Prod.snd).foldl commit acc0) :
    (Pool.step exec commit s a).acc =
      ((Pool.step exec commit s a).log.map Prod.snd).foldl commit acc0 := by
  cases a with
  | produce =>
    cases hp : s.pending with
    | nil => rw [Pool.step_produce_nil _ _ _ hp]; exact h
    | cons j rest => rw [Pool.step_produce_cons _ _ _ hp]; exact h
  | work i =>
    cases hw : s.workers[i]? with
    | none => rw [Pool.step_work_none _ _ _ hw]; exact h
    | some w =>
      cases w with
      | idle =>
        cases hq : s.queue with
        | nil => rw [Pool.step_work_idle_nil _ _ _ hw hq]; exact h
        | cons j q => rw [Pool.step_work_idle_cons _ _ _ hw hq]; exact h
      | holding j => rw [Pool.step_work_holding _ _ _ hw]; exact h
      | finished j o =>
        rw [Pool.step_work_finished _ _ _ hw]
        simp [h]

/-- When running a job leaves the environment as it is, so does a transition. -/
theorem Pool.step_env {E J O A : Type} (exec : E → J → E × O) (commit : A → O → A)
    (hexec : ∀ e j, (exec e j).1 = e) (s : Pool E J O A) (a : Action) :
    (Pool.step exec commit s a).env = s.env := by
  cases a with
  | produce =>
    cases hp : s.pending with
    | nil => rw [Pool.step_produce_nil _ _ _ hp]
    | cons j rest => rw [Pool.step_produce_cons _ _ _ hp]
  | work i =>
    cases hw : s.workers[i]? with
    | none => rw [Pool.step_work_none _ _ _ hw]
    | some w =>
      cases w with
      | idle =>
        cases hq : s.queue with
        | nil => rw [Pool.step_work_idle_nil _ _ _ hw hq]
        | cons j q => rw [Pool.step_work_idle_cons _ _ _ hw hq]
      | holding j => rw [Pool.step_work_holding _ _ _ hw]; exact hexec _ _
      | finished j o => rw [Pool.step_work_finished _ _ _ hw]

/-- A property every outcome of a run has is had by every outcome in the
history and in the hands of a worker. -/
theorem Pool.step_outcomes {E J O A : Type} (exec : E → J → E × O) (commit : A → O → A)
    (Q : J → O → Prop) (hexec : ∀ e j, Q j (exec e j).2) (s : Pool E J O A) (a : Action)
    (h : (∀ p ∈ s.log, Q p.1 p.2) ∧ ∀ j o, Worker.finished j o ∈ s.workers → Q j o) :
    (∀ p ∈ (Pool.step exec commit s a).log, Q p.1 p.2) ∧
      ∀ j o, Worker.finished j o ∈ (Pool.step exec commit s a).workers → Q j o := by
  obtain ⟨hl, hw0⟩ := h
  cases a with
  | produce =>
    cases hp : s.pending with
    | nil => rw [Pool.step_produce_nil _ _ _ hp]; exact ⟨hl, hw0⟩
    | cons j rest => rw [Pool.step_produce_cons _ _ _ hp]; exact ⟨hl, hw0⟩
  | work i =>
    cases hw : s.workers[i]? with
    | none => rw [Pool.step_work_none _ _ _ hw]; exact ⟨hl, hw0⟩
    | some w =>
      cases w with
      | idle =>
        cases hq : s.queue with
        | nil => rw [Pool.step_work_idle_nil _ _ _ hw hq]; exact ⟨hl, hw0⟩
        | cons j q =>
          rw [Pool.step_work_idle_cons _ _ _ hw hq]
          refine ⟨hl, fun j1 o1 hm => ?_⟩
          rcases List.mem_or_eq_of_mem_set hm with hm | hm
          · exact hw0 j1 o1 hm
          · cases hm
      | holding j =>
        rw [Pool.step_work_holding _ _ _ hw]
        refine ⟨hl, fun j1 o1 hm => ?_⟩
        rcases List.mem_or_eq_of_mem_set hm with hm | hm
        · exact hw0 j1 o1 hm
        · cases hm
          exact hexec _ _
      | finished j o =>
        rw [Pool.step_work_finished _ _ _ hw]
        have hjo : Q j o := hw0 j o (List.getElem?_mem hw)
        refine ⟨fun p hp => ?_, fun j1 o1 hm => ?_⟩
        · rcases List.mem_append.mp hp with hp | hp
          · exact hl p hp
          · rw [List.mem_singleton] at hp
            subst hp
            exact hjo
        · rcases List.mem_or_eq_of_mem_set hm with hm | hm
          · exact hw0 j1 o1 hm
          · cases hm

/-- A schedule run in two parts. -/
theorem Pool.run_append {E J O A : Type} (exec : E → J → E × O) (commit : A → O → A)
    (s1 s2 : List Action) (s : Pool E J O A) :
    Pool.run exec commit (s1 ++ s2) s = Pool.run exec commit s2 (Pool.run exec commit s1 s) := by
  simp [Pool.run]

/-- What every transition preserves, every schedule preserves. -/
theorem Pool.run_induction {E J O A : Type} (exec : E → J → E × O) (commit : A → O → A)
    (P : Pool E J O A → Prop) (hstep : ∀ s a, P s → P (Pool.step exec commit s a)) :
    ∀ (sched : List Action) (s : Pool E J O A), P s → P (Pool.run exec commit sched s)
  | [], _, h => h
  | a :: rest, s, h => by
    show P (Pool.run exec commit rest (Pool.step exec commit s a))
    exact Pool.run_induction exec commit P hstep rest _ (hstep s a h)

/-- A pool is done when nothing is left to send, the channel is closed and
empty, and every worker is idle. -/
theorem Pool.done_iff {E J O A : Type} (s : Pool E J O A) :
    s.done = true ↔
      s.pending = [] ∧ s.closed = true ∧ s.queue = [] ∧ ∀ w ∈ s.workers, w = Worker.idle := by
  unfold Pool.done
  simp only [Bool.and_eq_true, List.isEmpty_iff, List.all_eq_true]
  constructor
  · rintro ⟨⟨⟨h1, h2⟩, h3⟩, h4⟩
    refine ⟨h1, h2, h3, fun w hw => ?_⟩
    have := h4 w hw
    cases w <;> simp [Worker.isIdle] at this ⊢
  · rintro ⟨h1, h2, h3, h4⟩
    refine ⟨⟨⟨h1, h2⟩, h3⟩, fun w hw => ?_⟩
    rw [h4 w hw]
    rfl

/-- Idle workers hold no job. -/
theorem heldJobs_of_idle {J O : Type} (ws : List (Worker J O))
    (h : ∀ w ∈ ws, w = Worker.idle) : heldJobs ws = [] := by
  induction ws with
  | nil => rfl
  | cons w rest ih =>
    have hw := h w (List.mem_cons_self _ _)
    subst hw
    simp [heldJobs, Worker.jobs, ih (fun w hw => h w (List.mem_cons_of_mem _ hw))]

/-- In a pool that is done the jobs are those of the history. -/
theorem Pool.jobs_of_done {E J O A : Type} (s : Pool E J O A) (h : s.done = true) :
    s.jobs = s.log.map Prod.fst := by
  obtain ⟨h1, _, h3, h4⟩ := (Pool.done_iff s).mp h
  simp [Pool.jobs, h1, h3, heldJobs_of_idle _ h4]

/-- A pool that is not done and has a worker can take a transition that
lowers its measure. -/
theorem Pool.exists_progress {E J O A : Type} (exec : E → J → E × O) (commit : A → O → A)
    (s : Pool E J O A) (hd : ¬ s.done = true) (hw : 0 < s.workers.length) :
    ∃ a, (Pool.step exec commit s a).measure < s.measure := by
  cases hp : s.pending with
  | cons j rest =>
    refine ⟨.produce, ?_⟩
    rw [Pool.step_produce_cons _ _ _ hp]
    simp only [Pool.measure, hp, List.length_append, List.length_cons, List.length_nil]
    omega
  | nil =>
    cases hc : s.closed with
    | false =>
      refine ⟨.produce, ?_⟩
      rw [Pool.step_produce_nil _ _ _ hp]
      simp [Pool.measure, hc]
    | true =>
      by_cases hall : ∀ w ∈ s.workers, w = Worker.idle
      · cases hq : s.queue with
        | nil => exact absurd ((Pool.done_iff s).mpr ⟨hp, hc, hq, hall⟩) hd
        | cons j q =>
          have h0 : s.workers[0]? = some s.workers[0] := List.getElem?_eq_getElem hw
          have hidle : s.workers[0] = Worker.idle := hall _ (List.getElem_mem hw)
          rw [hidle] at h0
          obtain ⟨pre, post, h1, h2⟩ := exists_split_of_getElem? h0
          refine ⟨.work 0, ?_⟩
          rw [Pool.step_work_idle_cons _ _ _ h0 hq]
          simp only [Pool.measure, hq, h2, List.length_cons]
          rw [h1]
          simp only [totalWeight_append, totalWeight, Worker.weight]
          omega
      · push_neg at hall
        obtain ⟨w, hmem, hne⟩ := hall
        obtain ⟨i, hi⟩ := List.getElem?_of_mem hmem
        obtain ⟨pre, post, h1, h2⟩ := exists_split_of_getElem? hi
        refine ⟨.work i, ?_⟩
        cases w with
        | idle => exact absurd rfl hne
        | holding j =>
          rw [Pool.step_work_holding _ _ _ hi]
          simp only [Pool.measure, h2]
          rw [h1]
          simp only [totalWeight_append, totalWeight, Worker.weight]
          omega
        | finished j o =>
          rw [Pool.step_work_finished _ _ _ hi]
          simp only [Pool.measure, h2]
          rw [h1]
          simp only [totalWeight_append, totalWeight, Worker.weight]
          omega

/-- A pool with a worker can always be brought to the end: no state reached
is a deadlock. -/
theorem Pool.exists_done {E J O A : Type} (exec : E → J → E × O) (commit : A → O → A) :
    ∀ (n : Nat) (s : Pool E J O A), s.measure ≤ n → 0 < s.workers.length →
      ∃ sched, (Pool.run exec commit sched s).done = true := by
  intro n
  induction n with
  | zero =>
    intro s hm hw
    by_cases hd : s.done = true
    · exact ⟨[], hd⟩
    · obtain ⟨a, ha⟩ := Pool.exists_progress exec commit s hd hw
      omega
  | succ n ih =>
    intro s hm hw
    by_cases hd : s.done = true
    · exact ⟨[], hd⟩
    · obtain ⟨a, ha⟩ := Pool.exists_progress exec commit s hd hw
      obtain ⟨sched, hs⟩ := ih (Pool.step exec commit s a) (by omega)
        (by rw [Pool.step_workers_length]; exact hw)
      exact ⟨a :: sched, hs⟩

/-- From whatever state a schedule has led to, a pool with a worker can be
brought to the end. -/
theorem Pool.exists_extension {E J O A : Type} (exec : E → J → E × O) (commit : A → O → A)
    (env : E) (jobs : List J) (numWorkers : Nat) (acc : A) (hw : 0 < numWorkers)
    (sched : List Action) :
    ∃ more, (Pool.run exec commit (sched ++ more)
      (Pool.init env jobs numWorkers acc)).done = true := by
  have hlen : (Pool.run exec commit sched (Pool.init env jobs numWorkers acc)).workers.length =
      numWorkers := by
    refine Pool.run_induction exec commit (fun s => s.workers.length = numWorkers)
      (fun s a h => (Pool.step_workers_length exec commit s a).trans h) sched _ ?_
    simp [Pool.init]
  obtain ⟨more, hm⟩ := Pool.exists_done exec commit _
    (Pool.run exec commit sched (Pool.init env jobs numWorkers acc)) (le_refl _)
    (by rw [hlen]; exact hw)
  exact ⟨more, by rw [Pool.run_append]; exact hm⟩

/-- What holds of a pool after any schedule: no job is lost or duplicated, the
published value is the fold of the history, and every outcome has the
properties every run gives. -/
theorem Pool.run_init {E J O A : Type} [DecidableEq J] (exec : E → J → E × O)
    (commit : A → O → A) (Q : J → O → Prop) (hexec : ∀ e j, Q j (exec e j).2)
    (env : E) (jobs : List J) (numWorkers : Nat) (acc : A) (sched : List Action) :
    (Pool.run exec commit sched (Pool.init env jobs numWorkers acc)).jobs.Perm jobs ∧
    (Pool.run exec commit sched (Pool.init env jobs numWorkers acc)).acc =
      ((Pool.run exec commit sched (Pool.init env jobs numWorkers acc)).log.map
        Prod.snd).foldl commit acc ∧
    ∀ p ∈ (Pool.run exec commit sched (Pool.init env jobs numWorkers acc)).log, Q p.1 p.2 := by
  have key := Pool.run_induction exec commit
    (fun s => s.jobs.Perm jobs ∧ s.acc = (s.log.map Prod.snd).foldl commit acc ∧
      ((∀ p ∈ s.log, Q p.1 p.2) ∧ ∀ j o, Worker.finished j o ∈ s.workers → Q j o))
    (fun s a h => ⟨(Pool.step_jobs exec commit s a).trans h.1,
      Pool.step_acc exec commit acc s a h.2.1,
      Pool.step_outcomes exec commit Q hexec s a h.2.2⟩)
    sched (Pool.init env jobs numWorkers acc)
    ⟨by
      have : heldJobs (List.replicate numWorkers (Worker.idle : Worker J O)) = [] :=
        heldJobs_of_idle _ (fun w hw => (List.mem_replicate.mp hw).2)
      simp [Pool.init, Pool.jobs, this],
     by simp [Pool.init],
     by simp [Pool.init],
     by
      intro j o hm
      have := (List.mem_replicate.mp hm).2
      cases this⟩
  exact ⟨key.1, key.2.1, key.2.2.1⟩

/-! ## Deletion coordinator -/

/-- The counters after a sequence of critical sections. -/
theorem foldl_deleteCommit (outs : List Bool) (c : Int × Int) :
    outs.foldl deleteCommit c = (c.1 + (outs.count false : Int), c.2 + (outs.count true : Int)) := by
  induction outs generalizing c with
  | nil => simp
  | cons o rest ih =>
    rw [List.foldl_cons, ih]
    cases o <;> simp [deleteCommit, List.count_cons] <;> omega

/-- In dry-run mode `deleteNodeModules` touches nothing and returns nil. -/
theorem deleteNodeModules_dryRun (removeAll : Entry → Path → Entry × Bool) (fs : Entry)
    (path : Path) : deleteNodeModules removeAll fs path true = (fs, false) := by
  simp [deleteNodeModules]

/-- In real mode `deleteNodeModules` is `os.RemoveAll`. -/
theorem deleteNodeModules_real (removeAll : Entry → Path → Entry × Bool) (fs : Entry)
    (path : Path) : deleteNodeModules removeAll fs path false = removeAll fs path := by
  unfold deleteNodeModules
  cases h : (removeAll fs path).2 <;> simp [h, Prod.ext_iff]

/-- The value `deleteAllNodeModules` returns is the state of a pool that is
done. -/
theorem deleteAllNodeModules_eq_some (removeAll : Entry → Path → Entry × Bool) (numCPU : Nat)
    (sched : List Action) (fs : Entry) (results : List Result) (dryRun : Bool)
    (out : Entry × Int × Int) :
    deleteAllNodeModules removeAll numCPU sched fs results dryRun = some out ↔
      (deletePool removeAll numCPU sched fs results dryRun).done = true ∧
      out = ((deletePool removeAll numCPU sched fs results dryRun).env,
        (deletePool removeAll numCPU sched fs results dryRun).acc) := by
  unfold deleteAllNodeModules
  by_cases h : (deletePool removeAll numCPU sched fs results dryRun).done = true
  · simp [h, eq_comm]
  · simp [h]

/-- From any state reached `deleteAllNodeModules` can return. -/
theorem deleteAllNodeModules_returns (removeAll : Entry → Path → Entry × Bool) (numCPU : Nat)
    (hcpu : 0 < numCPU) (fs : Entry) (results : List Result) (dryRun : Bool)
    (sched : List Action) :
    ∃ more out,
      deleteAllNodeModules removeAll numCPU (sched ++ more) fs results dryRun = some out := by
  obtain ⟨more, hm⟩ := Pool.exists_extension
    (fun fs r => deleteNodeModules removeAll fs r.Path dryRun) deleteCommit fs results numCPU
    ((0, 0) : Int × Int) hcpu sched
  exact ⟨more, _, (deleteAllNodeModules_eq_some _ _ _ _ _ _ _).mpr ⟨hm, rfl⟩⟩

/-- What `deleteAllNodeModules` has done when it returns: every result has
been through `deleteNodeModules` once, with an outcome having whatever every
call of `deleteNodeModules` guarantees, and the counters count the outcomes. -/
theorem deletePool_done (removeAll : Entry → Path → Entry × Bool) (numCPU : Nat)
    (sched : List Action) (fs : Entry) (results : List Result) (dryRun : Bool)
    (Q : Result → Bool → Prop)
    (hQ : ∀ fs0 r, Q r (deleteNodeModules removeAll fs0 r.Path dryRun).2)
    (hd : (deletePool removeAll numCPU sched fs results dryRun).done = true) :
    ((deletePool removeAll numCPU sched fs results dryRun).log.map Prod.fst).Perm results ∧
    (∀ p ∈ (deletePool removeAll numCPU sched fs results dryRun).log, Q p.1 p.2) ∧
    (deletePool removeAll numCPU sched fs results dryRun).acc =
      (Int.ofNat (((deletePool removeAll numCPU sched fs results dryRun).log.map
          Prod.snd).count false),
        Int.ofNat (((deletePool removeAll numCPU sched fs results dryRun).log.map
          Prod.snd).count true)) := by
  obtain ⟨h1, h2, h3⟩ := Pool.run_init
    (fun fs r => deleteNodeModules removeAll fs r.Path dryRun) deleteCommit Q hQ fs results
    numCPU ((0, 0) : Int × Int) sched
  refine ⟨?_, h3, ?_⟩
  · rw [← Pool.jobs_of_done _ hd]
    exact h1
  · show (Pool.run _ _ sched _).acc = _
    rw [h2, foldl_deleteCommit]
    simp [deletePool]

/-- C1: in dry-run mode, with at least one CPU, whatever the result list and
whatever the paths are on the file system, `deleteAllNodeModules` can always
run to its return; under every interleaving of the workers the file system is
the same at every moment as before the call, the call returns
`(len(input), 0)`, and what `os.RemoveAll` would do has no influence on it. -/
theorem deleteAllNodeModules_dryRun (removeAll : Entry → Path → Entry × Bool) (numCPU : Nat)
    (hcpu : 0 < numCPU) (fs : Entry) (results : List Result) :
    (∀ sched, ∃ more out,
      deleteAllNodeModules removeAll numCPU (sched ++ more) fs results true = some out) ∧
    (∀ sched out, deleteAllNodeModules removeAll numCPU sched fs results true = some out →
      out = (fs, (results.length : Int), 0)) ∧
    (∀ sched, (deletePool removeAll numCPU sched fs results true).env = fs) ∧
    (∀ removeAll2 sched,
      deleteAllNodeModules removeAll2 numCPU sched fs results true =
        deleteAllNodeModules removeAll numCPU sched fs results true) := by
  have henv : ∀ sched, (deletePool removeAll numCPU sched fs results true).env = fs := by
    intro sched
    exact Pool.run_induction _ _ (fun s => s.env = fs)
      (fun s a h => (Pool.step_env _ _
        (fun e j => by rw [deleteNodeModules_dryRun]) s a).trans h) sched _ rfl
  refine ⟨deleteAllNodeModules_returns removeAll numCPU hcpu fs results true, ?_, henv, ?_⟩
  · intro sched out h
    obtain ⟨hd, rfl⟩ := (deleteAllNodeModules_eq_some _ _ _ _ _ _ _).mp h
    obtain ⟨h1, h2, h3⟩ := deletePool_done removeAll numCPU sched fs results true
      (fun _ o => o = false) (fun fs0 r => by rw [deleteNodeModules_dryRun]) hd
    have hall : ∀ b ∈ (deletePool removeAll numCPU sched fs results true).log.map Prod.snd,
        false = b := by
      intro b hb
      obtain ⟨p, hp, rfl⟩ := List.mem_map.mp hb
      exact (h2 p hp).symm
    have hlen : (deletePool removeAll numCPU sched fs results true).log.length =
        results.length := by
      simpa using h1.length_eq
    have hfalse := List.count_eq_length.mpr hall
    have htrue : ((deletePool removeAll numCPU sched fs results true).log.map Prod.snd).count
        true = 0 :=
      List.count_eq_zero.mpr (fun hm => by have := hall true hm; cases this)
    rw [h3, henv sched, hfalse, htrue]
    simp [hlen]
  · intro removeAll2 sched
    have hfun : ∀ rm : Entry → Path → Entry × Bool,
        (fun (fs : Entry) (r : Result) => deleteNodeModules rm fs r.Path true) =
          fun fs _ => (fs, false) := by
      intro rm
      funext fs r
      exact deleteNodeModules_dryRun rm fs r.Path
    simp only [deleteAllNodeModules, deletePool, hfun]

/-- A use of `deleteAllNodeModules_dryRun`: one CPU, two results whose paths
do not exist on the file system `scenario`, and an `os.RemoveAll` that would
empty the file system and fail. -/
theorem deleteAllNodeModules_dryRun_witness :
    0 < 1 ∧
    deleteAllNodeModules (fun _ _ => (folder "" [], true)) 1 (soloSchedule 2) scenario
      [sample "p" 5 1 0, sample "q" 7 2 0] true = some (scenario, 2, 0) :=
  ⟨by decide, by
    have h := (deleteAllNodeModules_dryRun (fun _ _ => (folder "" [], true)) 1 (by decide)
      scenario [sample "p" 5 1 0, sample "q" 7 2 0]).2.1 (soloSchedule 2)
    have hd : (deletePool (fun _ _ => (folder "" [], true)) 1 (soloSchedule 2) scenario
        [sample "p" 5 1 0, sample "q" 7 2 0] true).done = true := by decide
    have := h _ ((deleteAllNodeModules_eq_some _ _ _ _ _ _ _).mpr ⟨hd, rfl⟩)
    rw [(deleteAllNodeModules_eq_some _ _ _ _ _ _ _).mpr ⟨hd, rfl⟩, this]
    rfl⟩

/-- C5: in real mode, with at least one CPU, whatever the result list and
whatever `os.RemoveAll` does on each path, `deleteAllNodeModules` can always
run to its return, and under every interleaving of the workers, when it
returns `(deleted, failed)`: the paths `deleteNodeModules` was called on are
the paths of the input, each once (a failure stops nothing); each outcome is
that of `os.RemoveAll` on the path; `failed` is the number of calls that
returned an error, `deleted` the number of the others, and
`deleted + failed = len(input)`. -/
theorem deleteAllNodeModules_real (removeAll : Entry → Path → Entry × Bool) (numCPU : Nat)
    (hcpu : 0 < numCPU) (fs : Entry) (results : List Result) :
    (∀ sched, ∃ more out,
      deleteAllNodeModules removeAll numCPU (sched ++ more) fs results false = some out) ∧
    (∀ sched fs1 deleted failed,
      deleteAllNodeModules removeAll numCPU sched fs results false =
        some (fs1, deleted, failed) →
      ((deleteTrace removeAll numCPU sched fs results false).map Prod.fst).Perm results ∧
      (∀ p ∈ deleteTrace removeAll numCPU sched fs results false,
        ∃ fs0, p.2 = (removeAll fs0 p.1.Path).2) ∧
      failed = (((deleteTrace removeAll numCPU sched fs results false).map Prod.snd).count
        true : Nat) ∧
      deleted = (((deleteTrace removeAll numCPU sched fs results false).map Prod.snd).count
        false : Nat) ∧
      deleted + failed = results.length) := by
  refine ⟨deleteAllNodeModules_returns removeAll numCPU hcpu fs results false, ?_⟩
  intro sched fs1 deleted failed h
  obtain ⟨hd, hout⟩ := (deleteAllNodeModules_eq_some _ _ _ _ _ _ _).mp h
  obtain ⟨h1, h2, h3⟩ := deletePool_done removeAll numCPU sched fs results false
    (fun r o => ∃ fs0, o = (removeAll fs0 r.Path).2)
    (fun fs0 r => ⟨fs0, by rw [deleteNodeModules_real]⟩) hd
  have hacc : (deleted, failed) = (deletePool removeAll numCPU sched fs results false).acc :=
    (Prod.ext_iff.mp hout).2
  rw [h3] at hacc
  obtain ⟨hdel, hfail⟩ := Prod.ext_iff.mp hacc
  simp only at hdel hfail
  have hlen : (deletePool removeAll numCPU sched fs results false).log.length =
      results.length := by
    simpa using h1.length_eq
  have hsum := List.count_true_add_count_false
    ((deletePool removeAll numCPU sched fs results false).log.map Prod.snd)
  rw [List.length_map, hlen] at hsum
  refine ⟨h1, h2, hfail, hdel, ?_⟩
  rw [hdel, hfail]
  show ((_ : Nat) : Int) + ((_ : Nat) : Int) = _
  omega

/-- A use of `deleteAllNodeModules_real`: one CPU, two results, the removal
of the second one failing; the call returns `(1, 1)`. -/
theorem deleteAllNodeModules_real_witness :
    0 < 1 ∧
    deleteAllNodeModules failsOnQ 1 (soloSchedule 2) scenario
      [sample "p" 5 1 0, sample "q" 7 2 0] false = some (scenario, 1, 1) ∧
    ((1 : Int) + 1 = ([sample "p" 5 1 0, sample "q" 7 2 0] : List Result).length) :=
  ⟨by decide, rfl,
    ((deleteAllNodeModules_real failsOnQ 1 (by decide) scenario
      [sample "p" 5 1 0, sample "q" 7 2 0]).2 (soloSchedule 2) scenario 1 1 rfl).2.2.2.2⟩

/-! ## Scan coordinator -/

/-- The slice the caller collects is what was sent, in order. -/
theorem foldl_scanCommit (outs acc : List Result) :
    outs.foldl scanCommit acc = acc ++ outs := by
  induction outs generalizing acc with
  | nil => simp
  | cons o rest ih => simp [scanCommit, ih]

/-- The jobs sent are the paths with their indices. -/
theorem scanJobs_eq_zip (k : Nat) (nodeModules : List Path) :
    scanJobs (k : Int) nodeModules =
      (List.zip (List.range' k nodeModules.length) nodeModules).map
        (fun ip => ⟨ip.2, (ip.1 : Int)⟩) := by
  induction nodeModules generalizing k with
  | nil => simp [scanJobs]
  | cons dir rest ih =>
    have := ih (k + 1)
    rw [Nat.cast_succ] at this
    simp [scanJobs, List.range'_succ, this]

/-- The value `scanNodeModules` returns is that of a pool that is done. -/
theorem scanNodeModules_eq_some (numCPU : Nat) (sched : List Action) (fs : Entry)
    (nodeModules : List Path) (out : List Result) :
    scanNodeModules numCPU sched fs nodeModules = some out ↔
      (scanPool numCPU sched fs nodeModules).done = true ∧
      out = (scanPool numCPU sched fs nodeModules).acc := by
  unfold scanNodeModules
  by_cases h : (scanPool numCPU sched fs nodeModules).done = true
  · simp [h, eq_comm]
  · simp [h]

/-- C2: with at least one CPU, for every list of `N` matched paths,
`scanNodeModules` can always run to its return, and under every interleaving
of the workers the slice it returns is a rearrangement of the list that has,
for each index `i`, the `dirSize` of the path at `i` with `ReadOrder = i + 1`:
`N` results, one per path submitted, whose `ReadOrder` values are `1, ..., N`. -/
theorem scanNodeModules_spec (numCPU : Nat) (hcpu : 0 < numCPU) (fs : Entry)
    (nodeModules : List Path) :
    (∀ sched, ∃ more out,
      scanNodeModules numCPU (sched ++ more) fs nodeModules = some out) ∧
    (∀ sched results, scanNodeModules numCPU sched fs nodeModules = some results →
      results.Perm ((List.zip (List.range nodeModules.length) nodeModules).map
        (fun ip => { dirSize fs ip.2 with ReadOrder := (ip.1 : Int) + 1 })) ∧
      results.length = nodeModules.length ∧
      (results.map (fun r => r.ReadOrder)).Perm
        ((List.range nodeModules.length).map (fun i : Nat => (i : Int) + 1))) := by
  constructor
  · intro sched
    obtain ⟨more, hm⟩ := Pool.exists_extension (scanExec fs) scanCommit ()
      (scanJobs 0 nodeModules) numCPU ([] : List Result) hcpu sched
    exact ⟨more, _, (scanNodeModules_eq_some _ _ _ _ _).mpr ⟨hm, rfl⟩⟩
  · intro sched results h
    obtain ⟨hd, rfl⟩ := (scanNodeModules_eq_some _ _ _ _ _).mp h
    obtain ⟨h1, h2, h3⟩ := Pool.run_init (scanExec fs) scanCommit
      (fun j o => o = { dirSize fs j.path with ReadOrder := j.index + 1 })
      (fun _ _ => rfl) () (scanJobs 0 nodeModules) numCPU ([] : List Result) sched
    change (scanPool numCPU sched fs nodeModules).jobs.Perm _ at h1
    rw [Pool.jobs_of_done _ hd] at h1
    rw [foldl_scanCommit, List.nil_append] at h2
    have hacc : (scanPool numCPU sched fs nodeModules).acc =
        ((scanPool numCPU sched fs nodeModules).log.map Prod.fst).map
          (fun j => { dirSize fs j.path with ReadOrder := j.index + 1 }) := by
      show (Pool.run _ _ sched _).acc = _
      rw [h2, List.map_map]
      exact List.map_congr_left (fun p hp => h3 p hp)
    have hperm : (scanPool numCPU sched fs nodeModules).acc.Perm
        ((List.zip (List.range nodeModules.length) nodeModules).map
          (fun ip => { dirSize fs ip.2 with ReadOrder := (ip.1 : Int) + 1 })) := by
      rw [hacc]
      have e := scanJobs_eq_zip 0 nodeModules
      rw [Nat.cast_zero, ← List.range_eq_range'] at e
      rw [e] at h1
      refine (h1.map (fun j : Job => ({ dirSize fs j.path with ReadOrder := j.index + 1 } :
        Result))).trans (List.Perm.of_eq ?_)
      rw [List.map_map]
      rfl
    refine ⟨hperm, ?_, ?_⟩
    · rw [hperm.length_eq]
      simp
    · refine (hperm.map (fun r => r.ReadOrder)).trans ?_
      rw [List.map_map]
      have e : ((fun r : Result => r.ReadOrder) ∘
          fun ip : Nat × Path => ({ dirSize fs ip.2 with ReadOrder := (ip.1 : Int) + 1 } :
            Result)) = (fun i : Nat => (i : Int) + 1) ∘ Prod.fst := rfl
      rw [e, ← List.map_map, List.map_fst_zip]
      simp

/-- A use of `scanNodeModules_spec`, on the scenario of the specification with
two CPUs and an interleaving in which the second match is sized first: the
slice returned has the two results, the second first, each with the
`ReadOrder` of its position in the list submitted. -/
theorem scanNodeModules_spec_witness :
    0 < 2 ∧
    scanNodeModules 2 secondFirst scenario [["a", "node_modules"], ["b", "node_modules"]] =
      some [⟨["b", "node_modules"], 1, 1, 5, 2, ⟨0⟩⟩, ⟨["a", "node_modules"], 2, 1, 10, 1, ⟨0⟩⟩] ∧
    ([⟨["b", "node_modules"], 1, 1, 5, 2, ⟨0⟩⟩, ⟨["a", "node_modules"], 2, 1, 10, 1, ⟨0⟩⟩] :
      List Result).length = ([["a", "node_modules"], ["b", "node_modules"]] : List Path).length :=
  ⟨by decide, by decide,
    ((scanNodeModules_spec 2 (by decide) scenario
      [["a", "node_modules"], ["b", "node_modules"]]).2 secondFirst
      [⟨["b", "node_modules"], 1, 1, 5, 2, ⟨0⟩⟩, ⟨["a", "node_modules"], 2, 1, 10, 1, ⟨0⟩⟩]
      (by decide)).2.1⟩

/-! ## Selector -/

/-- One iteration of the loop appends the result the token picks, if any. -/
theorem selectStep_eq (results selected : List Result) (part : List Char) :
    selectStep results selected part =
      selected ++ (pick results (Sscanf (TrimSpace part))).toList := by
  unfold selectStep pick
  cases Sscanf (TrimSpace part) with
  | none => simp
  | some num =>
    by_cases hr : num > 0 ∧ num ≤ results.length
    · simp only [hr, and_self, if_true]
      cases results[(num - 1).toNat]? <;> simp
    · simp only [hr, if_false]
      simp

/-- The loop of `interactiveSelection` started from any slice. -/
theorem foldl_selectStep (results : List Result) (parts : List (List Char))
    (selected : List Result) :
    parts.foldl (selectStep results) selected =
      selected ++ parts.filterMap (fun tok => pick results (Sscanf (TrimSpace tok))) := by
  induction parts generalizing selected with
  | nil => simp
  | cons part rest ih =>
    rw [List.foldl_cons, ih, List.filterMap_cons, selectStep_eq]
    cases pick results (Sscanf (TrimSpace part)) <;> simp

/-- The function `interactiveSelection` on a non-empty list is the selection
by the value `Sscanf` reads in each token. -/
theorem interactiveSelection_eq (results : List Result) (hne : results ≠ []) (line : String) :
    interactiveSelection results (some line) = selectionWith Sscanf results line := by
  have hlen : ¬ results.length = 0 := fun h => hne (List.length_eq_zero.mp h)
  unfold interactiveSelection selectionWith
  simp only [hlen, if_false]
  by_cases h1 : ToLower (TrimSpace line.data) = "none".data ∨
      ToLower (TrimSpace line.data) = "cancel".data
  · simp only [h1, if_true]
  · simp only [h1, if_false]
    by_cases h2 : ToLower (TrimSpace line.data) = "all".data
    · simp only [h2, if_true]
    · simp only [h2, if_false]
      rw [foldl_selectStep, List.nil_append]
      split_ifs with h3
      · exact (List.length_eq_zero.mp h3).symm
      · rfl

/-- A run `parseDigits` accepts is made of digits. -/
theorem digits_of_parseDigits : ∀ (l : List Char) (acc n : Nat),
    parseDigits acc l = some n → ∀ c ∈ l, c.isDigit = true
  | [], _, _, _ => by simp
  | c :: cs, acc, n, h => by
    unfold parseDigits at h
    by_cases hc : c.isDigit = true
    · rw [if_pos hc] at h
      intro x hx
      rcases List.mem_cons.mp hx with rfl | hx
      · exact hc
      · exact digits_of_parseDigits cs _ n h x hx
    · rw [if_neg hc] at h
      cases h

/-- A run of digits is read whole by `scanNumber`. -/
theorem takeWhile_of_digits (l : List Char) (h : ∀ c ∈ l, c.isDigit = true) :
    l.takeWhile Char.isDigit = l := by
  rw [List.takeWhile_eq_self_iff]
  exact h

/-- A token that is an integer is read by `Sscanf` as that integer. -/
theorem Sscanf_of_integerToken (tok : List Char) (k : Int) (h : integerToken tok = some k) :
    Sscanf tok = some k := by
  have key : scanToken tok = some tok := by
    unfold integerToken ParseInt at h
    cases tok with
    | nil => cases h
    | cons c rest =>
      simp only at h
      by_cases hm : c = '-'
      · rw [if_pos hm] at h
        cases rest with
        | nil => cases h
        | cons d ds =>
          simp only at h
          cases hp : parseDigits 0 (d :: ds) with
          | none => rw [hp] at h; cases h
          | some n =>
            have := takeWhile_of_digits _ (digits_of_parseDigits _ _ _ hp)
            simp [scanToken, hm, this]
      · rw [if_neg hm] at h
        by_cases hpl : c = '+'
        · simp only [hpl, if_true] at h
          cases rest with
          | nil => cases h
          | cons d ds =>
            simp only at h
            cases hp : parseDigits 0 (d :: ds) with
            | none => rw [hp] at h; cases h
            | some n =>
              have := takeWhile_of_digits _ (digits_of_parseDigits _ _ _ hp)
              simp [scanToken, hpl, this]
        · simp only [hpl, if_false] at h
          cases hp : parseDigits 0 (c :: rest) with
          | none => rw [hp] at h; cases h
          | some n =>
            have := takeWhile_of_digits _ (digits_of_parseDigits _ _ _ hp)
            simp [scanToken, hm, hpl, this]
  unfold Sscanf
  rw [key]
  exact h

/-- The integer `Sscanf` reads in a token is an integer a leading part of the
token is. -/
theorem leading_of_Sscanf (tok : List Char) (k : Int) (h : Sscanf tok = some k) :
    ∃ run rest, tok = run ++ rest ∧ integerToken run = some k := by
  unfold Sscanf at h
  cases hs : scanToken tok with
  | none => rw [hs] at h; cases h
  | some run =>
    rw [hs] at h
    refine ⟨run, tok.drop run.length, ?_, h⟩
    have hp : run <+: tok := by
      unfold scanToken at hs
      cases tok with
      | nil => cases hs
      | cons c rest =>
        simp only at hs
        split_ifs at hs with h1 h2 h3
        · cases hs
          exact List.prefix_cons_inj c |>.mpr (List.takeWhile_prefix _)
        · cases hs
          exact List.takeWhile_prefix _
    obtain ⟨r, rfl⟩ := hp
    simp

/-- C4, the claim as stated fails: on a 3-element list the line `2abc` has a
single token, which is not an integer, so it selects nothing as the claim
words the grammar; `interactiveSelection` returns the second element, because
`Sscanf` with `%d` reads the leading `2` and leaves `abc` unread. -/
theorem interactiveSelection_counterexample :
    integerToken "2abc".data = none ∧
    selectionAsSpecified three "2abc" = [] ∧
    interactiveSelection three (some "2abc") = [sample "q" 7 2 0] := by
  decide

/-- C4 (amended): on a non-empty result list and a line read without error,
compared after trimming and lower-casing, `interactiveSelection` returns the
nil selection for `none` and `cancel`, the list itself for `all`, and
otherwise, splitting on commas, `results[k-1]` for each token in which
`Sscanf` with `%d` reads an integer `k` with `1 ≤ k ≤ n`, in token order, the
other tokens being discarded, and nil when none is left.  What `Sscanf` reads
is the integer spelled by the longest leading run of digits of the token,
after an optional sign: a token that is an integer is read as that integer,
and what follows the run in another token is ignored. -/
theorem interactiveSelection_spec (results : List Result) (hne : results ≠ []) (line : String) :
    interactiveSelection results (some line) = selectionWith Sscanf results line ∧
    (ToLower (TrimSpace line.data) = "none".data ∨
      ToLower (TrimSpace line.data) = "cancel".data →
        interactiveSelection results (some line) = []) ∧
    (ToLower (TrimSpace line.data) = "all".data →
      interactiveSelection results (some line) = results) ∧
    (ToLower (TrimSpace line.data) ≠ "none".data →
      ToLower (TrimSpace line.data) ≠ "cancel".data →
      ToLower (TrimSpace line.data) ≠ "all".data →
      interactiveSelection results (some line) =
        (Split ',' (ToLower (TrimSpace line.data))).filterMap
          (fun tok => pick results (Sscanf (TrimSpace tok)))) ∧
    (∀ tok k, integerToken tok = some k → Sscanf tok = some k) ∧
    (∀ tok k, Sscanf tok = some k →
      ∃ run rest, tok = run ++ rest ∧ integerToken run = some k) := by
  refine ⟨interactiveSelection_eq results hne line, ?_, ?_, ?_, Sscanf_of_integerToken,
    leading_of_Sscanf⟩
  · intro h
    rw [interactiveSelection_eq results hne line]
    simp only [selectionWith, h, if_true]
  · intro h
    rw [interactiveSelection_eq results hne line]
    have h1 : ¬ (ToLower (TrimSpace line.data) = "none".data ∨
        ToLower (TrimSpace line.data) = "cancel".data) := by
      rw [h]
      decide
    unfold selectionWith
    simp only
    rw [if_neg h1, if_pos h]
  · intro h1 h2 h3
    rw [interactiveSelection_eq results hne line]
    have h12 : ¬ (ToLower (TrimSpace line.data) = "none".data ∨
        ToLower (TrimSpace line.data) = "cancel".data) := fun h => h.elim h1 h2
    simp only [selectionWith, h12, if_false, h3]

/-- A use of `interactiveSelection_spec`: `1,3` on a 5-element list yields the
elements at positions 1 and 3, `99` on a 3-element list yields the nil
selection, and so does `none`; `ALL` yields the list. -/
theorem interactiveSelection_spec_witness :
    five ≠ [] ∧
    interactiveSelection five (some "1,3\n") = [sample "p" 5 1 0, sample "r" 6 3 0] ∧
    interactiveSelection three (some "99\n") = [] ∧
    interactiveSelection three (some "none\n") = [] ∧
    interactiveSelection three (some " ALL \n") = three :=
  ⟨by decide,
    (interactiveSelection_spec five (by decide) "1,3\n").1.trans (by decide),
    (interactiveSelection_spec three (by decide) "99\n").1.trans (by decide),
    (interactiveSelection_spec three (by decide) "none\n").2.1 (by decide),
    (interactiveSelection_spec three (by decide) " ALL \n").2.2.1 (by decide)⟩

/-! ## Summary and the interactive path -/

/-- Insertion adds the result. -/
theorem insertBySize_perm (r : Result) (l : List Result) : (insertBySize r l).Perm (r :: l) := by
  induction l with
  | nil => exact List.Perm.refl _
  | cons x xs ih =>
    unfold insertBySize
    split_ifs
    · exact List.Perm.refl _
    · exact (List.Perm.cons x ih).trans (List.Perm.swap r x xs)

/-- The table has the results handed to `printSummary`. -/
theorem sortBySize_perm (l : List Result) : (sortBySize l).Perm l := by
  induction l with
  | nil => exact List.Perm.refl _
  | cons r rest ih =>
    show (insertBySize r (sortBySize rest)).Perm (r :: rest)
    exact (insertBySize_perm r _).trans (List.Perm.cons r ih)

/-- Insertion keeps a list sorted by size, largest first. -/
theorem insertBySize_sorted (r : Result) (l : List Result)
    (h : l.Pairwise (fun a b => b.Size ≤ a.Size)) :
    (insertBySize r l).Pairwise (fun a b => b.Size ≤ a.Size) := by
  induction l with
  | nil => simp [insertBySize]
  | cons x xs ih =>
    rw [List.pairwise_cons] at h
    unfold insertBySize
    split_ifs with hx
    · refine List.pairwise_cons.mpr ⟨fun b hb => ?_, List.pairwise_cons.mpr h⟩
      rcases List.mem_cons.mp hb with rfl | hb
      · exact hx
      · exact le_trans (h.1 b hb) hx
    · refine List.pairwise_cons.mpr ⟨fun b hb => ?_, ih h.2⟩
      rcases List.mem_cons.mp ((insertBySize_perm r xs).subset hb) with rfl | hb
      · omega
      · exact h.1 b hb

/-- The table is sorted by size, largest first. -/
theorem sortBySize_sorted (l : List Result) :
    (sortBySize l).Pairwise (fun a b => b.Size ≤ a.Size) := by
  induction l with
  | nil => simp [sortBySize]
  | cons r rest ih => exact insertBySize_sorted r _ ih

/-- A list in strictly decreasing order of size is its own table. -/
theorem sortBySize_of_sorted (l : List Result)
    (h : l.Pairwise (fun a b => b.Size < a.Size)) : sortBySize l = l := by
  induction l with
  | nil => rfl
  | cons r rest ih =>
    rw [List.pairwise_cons] at h
    show insertBySize r (sortBySize rest) = r :: rest
    rw [ih h.2]
    cases rest with
    | nil => rfl
    | cons x xs =>
      have := h.1 x (List.mem_cons_self _ _)
      simp only [insertBySize]
      rw [if_pos (by omega)]

/-- Every result selected is one of the results handed. -/
theorem interactiveSelection_subset (results : List Result) (line : Option String) :
    interactiveSelection results line ⊆ results := by
  by_cases hne : results = []
  · subst hne
    simp [interactiveSelection]
  · cases line with
    | none => simp [interactiveSelection, hne]
    | some line =>
      rw [interactiveSelection_eq results hne line]
      unfold selectionWith
      simp only
      split_ifs
      · exact List.nil_subset _
      · exact List.Subset.refl _
      · intro r hr
        obtain ⟨tok, _, hp⟩ := List.mem_filterMap.mp hr
        unfold pick at hp
        cases hs : Sscanf (TrimSpace tok) with
        | none => rw [hs] at hp; cases hp
        | some k =>
          rw [hs] at hp
          simp only at hp
          split_ifs at hp
          exact List.getElem?_mem hp

/-- A list in non-increasing order of size that rearranges a list in strictly
decreasing order of size is that list. -/
theorem eq_of_perm_of_strict (l : List Result) (hl : l.Pairwise (fun a b => b.Size < a.Size)) :
    ∀ r : List Result, r.Perm l → r.Pairwise (fun a b => b.Size ≤ a.Size) → r = l := by
  induction l with
  | nil =>
    intro r hp _
    exact hp.eq_nil
  | cons h t ih =>
    intro r hp hr
    rw [List.pairwise_cons] at hl
    cases r with
    | nil => exact absurd hp.symm.eq_nil (by simp)
    | cons x xs =>
      rw [List.pairwise_cons] at hr
      have hx : x ∈ h :: t := hp.subset (List.mem_cons_self _ _)
      have hh : h ∈ x :: xs := hp.symm.subset (List.mem_cons_self _ _)
      have hxh : x = h := by
        rcases List.mem_cons.mp hx with e | hxt
        · exact e
        · rcases List.mem_cons.mp hh with e | hhx
          · exact e.symm
          · have h1 := hl.1 x hxt
            have h2 := hr.1 h hhx
            omega
      subst hxh
      rw [ih hl.2 xs (List.Perm.cons_inv hp) hr.2]

/-- Insertion sort is a sort by size. -/
theorem sortBySize_sorts : SortsBySize sortBySize :=
  fun l => ⟨sortBySize_perm l, sortBySize_sorted l⟩

/-- Where no filter is set every result is retained. -/
theorem filter_retained_of_unset (now : Time) (config : Config) (results : List Result)
    (h : ¬ (config.MinSize > 0 ∨ config.MaxSize > 0 ∨ config.OlderThan > 0)) :
    results.filter (fun r => decide (Retained now config r)) = results := by
  apply List.filter_eq_self.mpr
  intro r _
  rw [decide_eq_true_eq]
  exact ⟨fun h1 => absurd (Or.inl h1) h, fun h2 => absurd (Or.inr (Or.inl h2)) h,
    fun h3 => absurd (Or.inr (Or.inr h3)) h⟩

/-- The slice `main` hands to the selector. -/
theorem mainInteractive_handed (sortSlice : List Result → List Result) (now : Time)
    (config : Config) (results : List Result) (line : Option String) :
    (mainInteractive sortSlice now config results line).handed =
      results.filter (fun r => decide (Retained now config r)) := by
  unfold mainInteractive
  simp only
  split_ifs with h
  · exact filterResults_eq_filter now results config
  · exact (filter_retained_of_unset now config results h).symm

/-- C8, the claim as stated fails: on the file system `smallFirst`, with one
CPU, `findNodeModules` finds `a/node_modules` (5 bytes) before
`b/node_modules` (10 bytes), `scanNodeModules` returns them in that order,
and `main` hands the selector that list, which is not in non-increasing order
of size: index 1 selects `a/node_modules`, while row 1 of the table of
`printSummary` is `b/node_modules`, whatever `sort.Slice` does with results
of equal size. -/
theorem selector_order_counterexample :
    (findNodeModules smallFirst []).1 = [["a", "node_modules"], ["b", "node_modules"]] ∧
    scanNodeModules 1 (soloSchedule 2) smallFirst
        [["a", "node_modules"], ["b", "node_modules"]] =
      some [⟨["a", "node_modules"], 1, 1, 5, 1, ⟨0⟩⟩, ⟨["b", "node_modules"], 1, 1, 10, 2, ⟨0⟩⟩] ∧
    (mainInteractive sortBySize ⟨0⟩ interactive
        [⟨["a", "node_modules"], 1, 1, 5, 1, ⟨0⟩⟩, ⟨["b", "node_modules"], 1, 1, 10, 2, ⟨0⟩⟩]
        (some "1\n")).handed =
      [⟨["a", "node_modules"], 1, 1, 5, 1, ⟨0⟩⟩, ⟨["b", "node_modules"], 1, 1, 10, 2, ⟨0⟩⟩] ∧
    ¬ (mainInteractive sortBySize ⟨0⟩ interactive
        [⟨["a", "node_modules"], 1, 1, 5, 1, ⟨0⟩⟩, ⟨["b", "node_modules"], 1, 1, 10, 2, ⟨0⟩⟩]
        (some "1\n")).handed.Pairwise (fun a b => b.Size ≤ a.Size) ∧
    (mainInteractive sortBySize ⟨0⟩ interactive
        [⟨["a", "node_modules"], 1, 1, 5, 1, ⟨0⟩⟩, ⟨["b", "node_modules"], 1, 1, 10, 2, ⟨0⟩⟩]
        (some "1\n")).selected = [⟨["a", "node_modules"], 1, 1, 5, 1, ⟨0⟩⟩] ∧
    (mainInteractive sortBySize ⟨0⟩ interactive
        [⟨["a", "node_modules"], 1, 1, 5, 1, ⟨0⟩⟩, ⟨["b", "node_modules"], 1, 1, 10, 2, ⟨0⟩⟩]
        (some "1\n")).summary.rows.head? = some ⟨["b", "node_modules"], 1, 1, 10, 2, ⟨0⟩⟩ ∧
    (∀ sortSlice, SortsBySize sortSlice →
      (mainInteractive sortSlice ⟨0⟩ interactive
        [⟨["a", "node_modules"], 1, 1, 5, 1, ⟨0⟩⟩, ⟨["b", "node_modules"], 1, 1, 10, 2, ⟨0⟩⟩]
        (some "1\n")).summary.rows =
      [⟨["b", "node_modules"], 1, 1, 10, 2, ⟨0⟩⟩, ⟨["a", "node_modules"], 1, 1, 5, 1, ⟨0⟩⟩]) := by
  refine ⟨by decide, by decide, by decide, by decide, by decide, by decide, ?_⟩
  intro sortSlice hs
  obtain ⟨hp, hr⟩ := hs
    [⟨["a", "node_modules"], 1, 1, 5, 1, ⟨0⟩⟩, ⟨["b", "node_modules"], 1, 1, 10, 2, ⟨0⟩⟩]
  exact eq_of_perm_of_strict _ (by decide) _ (hp.trans (List.Perm.swap _ _ _)) hr

/-- C8 (amended): in the interactive path `main` hands `interactiveSelection`
the results in the order `scanNodeModules` returned them, less those the
filter dropped: the list handed is `filterResults` of the results when a
filter is set and the results themselves when none is, in both cases the
results that are `Retained`, in their order.  The selection is made by
position in that list, so every result selected is one of it.  `printSummary`
sorts a copy, its table being the same results in non-increasing order of
size.  Index `k` of the selector and row `k` of the table are the same
directory when the list handed is in strictly decreasing order of size. -/
theorem mainInteractive_spec (sortSlice : List Result → List Result)
    (hsort : SortsBySize sortSlice) (now : Time) (config : Config) (results : List Result)
    (line : Option String) :
    (mainInteractive sortSlice now config results line).handed =
      results.filter (fun r => decide (Retained now config r)) ∧
    (config.MinSize > 0 ∨ config.MaxSize > 0 ∨ config.OlderThan > 0 →
      (mainInteractive sortSlice now config results line).handed =
        filterResults now results config) ∧
    (¬ (config.MinSize > 0 ∨ config.MaxSize > 0 ∨ config.OlderThan > 0) →
      (mainInteractive sortSlice now config results line).handed = results) ∧
    (mainInteractive sortSlice now config results line).selected =
      interactiveSelection (results.filter (fun r => decide (Retained now config r))) line ∧
    (mainInteractive sortSlice now config results line).selected ⊆
      (mainInteractive sortSlice now config results line).handed ∧
    (mainInteractive sortSlice now config results line).summary.rows.Perm
      (mainInteractive sortSlice now config results line).handed ∧
    (mainInteractive sortSlice now config results line).summary.rows.Pairwise
      (fun a b => b.Size ≤ a.Size) ∧
    ((mainInteractive sortSlice now config results line).handed.Pairwise
        (fun a b => b.Size < a.Size) →
      (mainInteractive sortSlice now config results line).summary.rows =
        (mainInteractive sortSlice now config results line).handed) := by
  have hh := mainInteractive_handed sortSlice now config results line
  have hsel : (mainInteractive sortSlice now config results line).selected =
      interactiveSelection (mainInteractive sortSlice now config results line).handed line := rfl
  have hrows : (mainInteractive sortSlice now config results line).summary.rows =
      sortSlice (mainInteractive sortSlice now config results line).handed := rfl
  refine ⟨hh, ?_, ?_, ?_, ?_, ?_, ?_, ?_⟩
  · intro h
    rw [hh, filterResults_eq_filter]
  · intro h
    rw [hh, filter_retained_of_unset now config results h]
  · rw [hsel, hh]
  · rw [hsel]
    exact interactiveSelection_subset _ _
  · rw [hrows]
    exact (hsort _).1
  · rw [hrows]
    exact (hsort _).2
  · intro hstrict
    rw [hrows]
    exact eq_of_perm_of_strict _ hstrict _ (hsort _).1 (hsort _).2

/-- A use of `mainInteractive_spec`, with a minimum size of 6 bytes: of three
results the one of 5 bytes is dropped before the selector; the list handed is
in strictly decreasing order of size and is its own summary table; index 2
selects the result of 6 bytes. -/
theorem mainInteractive_spec_witness :
    SortsBySize sortBySize ∧
    (mainInteractive sortBySize ⟨0⟩ ⟨[], false, false, false, 6, 0, 0, true, ""⟩
      [sample "q" 7 2 0, sample "p" 5 1 0, sample "r" 6 3 0] (some "2\n")).handed =
      [sample "q" 7 2 0, sample "r" 6 3 0] ∧
    (mainInteractive sortBySize ⟨0⟩ ⟨[], false, false, false, 6, 0, 0, true, ""⟩
      [sample "q" 7 2 0, sample "p" 5 1 0, sample "r" 6 3 0] (some "2\n")).selected =
      [sample "r" 6 3 0] ∧
    (mainInteractive sortBySize ⟨0⟩ ⟨[], false, false, false, 6, 0, 0, true, ""⟩
      [sample "q" 7 2 0, sample "p" 5 1 0, sample "r" 6 3 0] (some "2\n")).summary.rows =
      [sample "q" 7 2 0, sample "r" 6 3 0] :=
  ⟨sortBySize_sorts,
    (mainInteractive_spec sortBySize sortBySize_sorts ⟨0⟩
      ⟨[], false, false, false, 6, 0, 0, true, ""⟩
      [sample "q" 7 2 0, sample "p" 5 1 0, sample "r" 6 3 0] (some "2\n")).1.trans (by decide),
    (mainInteractive_spec sortBySize sortBySize_sorts ⟨0⟩
      ⟨[], false, false, false, 6, 0, 0, true, ""⟩
      [sample "q" 7 2 0, sample "p" 5 1 0, sample "r" 6 3 0]
      (some "2\n")).2.2.2.1.trans (by decide),
    ((mainInteractive_spec sortBySize sortBySize_sorts ⟨0⟩
      ⟨[], false, false, false, 6, 0, 0, true, ""⟩
      [sample "q" 7 2 0, sample "p" 5 1 0, sample "r" 6 3 0]
      (some "2\n")).2.2.2.2.2.2.2 (by decide)).trans (by decide)⟩

end Cleaner
